import Mathlib

/-!
Verification of the flow-computation engine of a water-supply analysis system
(Edmonds-Karp maximum flow with vertex/edge deactivation variants).

The repository ships only the interface `Algorithms.h`; the function bodies are
not part of the source tree, so every operation below is modelled from the
design specification (BFS augmenting-path search over the residual graph,
bottleneck computation and flow augmentation along predecessor-edge chains,
and the Edmonds-Karp driver loop with its two query-time exclusion variants).
-/

namespace WaterSupply

/-- Modelled from the spec: an edge of the graph model connects an origin
vertex to a destination vertex and carries a capacity (§3 Data Model).
The current flow is kept separately in a `FlowState`. -/
structure Edge where
  orig : String
  dest : String
  capacity : ℤ
deriving DecidableEq

/-- Modelled from the spec: the graph model holds the vertex set (station
codes) and the list of edges (§3 Data Model). -/
structure Graph where
  vertices : List String
  edges : List Edge
deriving DecidableEq

/-- Edge of index `i` (edges are identified by their position in the list). -/
def Graph.edge (g : Graph) (i : ℕ) : Edge := g.edges.getD i ⟨"", "", 0⟩

/-- Modelled from the spec: the per-edge mutable flow fields, indexed by edge
position; the sole mutable state touched by the algorithm (§2). -/
def FlowState : Type := ℕ → ℤ

/-- The all-zero flow assignment. -/
def zeroFlow : FlowState := fun _ => 0

/-- A traversal step in the residual graph: an edge index together with the
direction it is used in (`fwd = true`: the real edge origin→destination;
`fwd = false`: the residual/reverse use destination→origin). -/
structure Step where
  idx : ℕ
  fwd : Bool
deriving DecidableEq

/-- The vertex a step arrives at. -/
def stepTarget (g : Graph) (st : Step) : String :=
  if st.fwd then (g.edge st.idx).dest else (g.edge st.idx).orig

/-- The vertex a step departs from. -/
def stepSource (g : Graph) (st : Step) : String :=
  if st.fwd then (g.edge st.idx).orig else (g.edge st.idx).dest

/-- Modelled from the spec: residual capacity — capacity minus flow for a
forward edge, the counterpart's flow for a reverse/residual edge (§4.1, Glossary). -/
def residualOf (g : Graph) (fl : FlowState) (st : Step) : ℤ :=
  if st.fwd then (g.edge st.idx).capacity - fl st.idx else fl st.idx

/-- Forward incident steps of a vertex: its outgoing real edges. -/
def forwardSteps (g : Graph) (v : String) : List Step :=
  ((List.range g.edges.length).filter (fun i => (g.edge i).orig = v)).map
    (fun i => ⟨i, true⟩)

/-- Reverse incident steps of a vertex: residual uses of its incoming edges. -/
def reverseSteps (g : Graph) (v : String) : List Step :=
  ((List.range g.edges.length).filter (fun i => (g.edge i).dest = v)).map
    (fun i => ⟨i, false⟩)

/-- Modelled from the spec: the incident edges of a vertex, "both outgoing
real edges and incoming reverse/residual edges" (§3 Vertex). -/
def incidentSteps (g : Graph) (v : String) : List Step :=
  forwardSteps g v ++ reverseSteps g v

/-- Modelled from the spec: the deactivation selector — no exclusion, a single
vertex by code, or a single edge by endpoint-code pair plus directionality
flag (§3 Deactivation Selector). -/
inductive Exclusion where
  | nothing : Exclusion
  | vertex (code : String) : Exclusion
  | pipe (a b : String) (unidirectional : Bool) : Exclusion

/-- Modelled from the spec: which traversal steps an exclusion forbids
(§4.1 steps for the vertex-excluded and edge-excluded variants). -/
def skipStep (g : Graph) (excl : Exclusion) (st : Step) : Bool :=
  match excl with
  | .nothing => false
  | .vertex d => stepTarget g st == d
  | .pipe a b uni =>
      (stepSource g st == a && stepTarget g st == b) ||
        (!uni && stepSource g st == b && stepTarget g st == a)

/-- The scratch state of one BFS: visited vertices in visit order, the FIFO
queue, and the per-vertex predecessor-edge field (§3 Vertex). -/
structure SearchState where
  visited : List String
  queue : List String
  pred : String → Option Step

/-- Modelled from the spec: `testAndVisit` — skip the step if its residual is
non-positive, the target is already visited, or the exclusion forbids it;
otherwise mark the target visited, set its predecessor-edge, enqueue it
(§4.1 step 2; generic in the exclusion, instantiated below). -/
def testAndVisitEx (g : Graph) (excl : Exclusion) (fl : FlowState)
    (st : SearchState) (e : Step) : SearchState :=
  let w := stepTarget g e
  if w ∈ st.visited ∨ residualOf g fl e ≤ 0 ∨ skipStep g excl e = true then st
  else
    { visited := st.visited ++ [w]
      queue := st.queue ++ [w]
      pred := fun x => if x = w then some e else st.pred x }

/-- One iteration of the BFS loop: `none` when the loop exits (sink visited or
queue empty), otherwise dequeue the front vertex and test all its incident
steps (§4.1 step 2). -/
def bfsStep (g : Graph) (excl : Exclusion) (fl : FlowState) (t : String)
    (st : SearchState) : Option SearchState :=
  if t ∈ st.visited then none
  else
    match st.queue with
    | [] => none
    | v :: rest =>
        some ((incidentSteps g v).foldl (testAndVisitEx g excl fl)
          ⟨st.visited, rest, st.pred⟩)

/-- The BFS loop, driven by fuel (one unit per dequeued vertex; the callers
supply fuel `|V|`, which suffices because each iteration either visits a new
vertex or shortens the queue). -/
def bfsLoop (g : Graph) (excl : Exclusion) (fl : FlowState) (t : String) :
    ℕ → SearchState → SearchState
  | 0, st => st
  | fuel + 1, st =>
      match bfsStep g excl fl t st with
      | none => st
      | some st' => bfsLoop g excl fl t fuel st'

/-- Modelled from the spec: initial BFS state — visited flags reset, source
marked visited and enqueued, predecessor-edge fields absent (§4.1 step 1). -/
def initState (s : String) : SearchState :=
  { visited := [s], queue := [s], pred := fun _ => none }

/-- Modelled from the spec: the BFS augmenting-path search, generic in the
exclusion selector (§4.1); returns the final search state, whose visited
list answers "was the sink reached" and whose `pred` field encodes the path. -/
def findAugmentingPathEx (g : Graph) (excl : Exclusion) (fl : FlowState)
    (s t : String) : SearchState :=
  bfsLoop g excl fl t g.vertices.length (initState s)

/-- Modelled from the spec: `testAndVisit`, the unrestricted variant. -/
def testAndVisit (g : Graph) (fl : FlowState) (st : SearchState) (e : Step) :
    SearchState :=
  testAndVisitEx g .nothing fl st e

/-- Modelled from the spec: `findAugmentingPath`, the unrestricted search. -/
def findAugmentingPath (g : Graph) (fl : FlowState) (s t : String) : SearchState :=
  findAugmentingPathEx g .nothing fl s t

/-- Modelled from the spec: `testAndVisitWithDeactivatedVertex`. -/
def testAndVisitWithDeactivatedVertex (g : Graph) (fl : FlowState)
    (st : SearchState) (e : Step) (deactivated : String) : SearchState :=
  testAndVisitEx g (.vertex deactivated) fl st e

/-- Modelled from the spec: `findAugmentingPathWithDeactivatedVertex`. -/
def findAugmentingPathWithDeactivatedVertex (g : Graph) (fl : FlowState)
    (s t : String) (deactivated : String) : SearchState :=
  findAugmentingPathEx g (.vertex deactivated) fl s t

/-- Modelled from the spec: `testAndVisitWithDeactivatedEdge`. -/
def testAndVisitWithDeactivatedEdge (g : Graph) (fl : FlowState)
    (st : SearchState) (e : Step) (servicePointA servicePointB : String)
    (unidirectional : Bool) : SearchState :=
  testAndVisitEx g (.pipe servicePointA servicePointB unidirectional) fl st e

/-- Modelled from the spec: `findAugmentingPathWithDeactivatedEdge`. -/
def findAugmentingPathWithDeactivatedEdge (g : Graph) (fl : FlowState)
    (s t : String) (servicePointA servicePointB : String)
    (unidirectional : Bool) : SearchState :=
  findAugmentingPathEx g (.pipe servicePointA servicePointB unidirectional) fl s t

/-- Modelled from the spec: the augmenting path implicit in the
predecessor-edge chain, reconstructed by walking backward from `v` to the
source `s` (§3 Augmenting Path); fuel-driven, `none` when the chain is broken
or too long. -/
def walkPath (g : Graph) (pred : String → Option Step) (s : String) :
    ℕ → String → Option (List Step)
  | 0, v => if v = s then some [] else none
  | fuel + 1, v =>
      if v = s then some []
      else
        match pred v with
        | none => none
        | some st => (walkPath g pred s fuel (stepSource g st)).map (fun p => st :: p)

/-- The backward walk of `findMinResidualAlongPath`: accumulate the minimum
residual capacity (accumulator starts at ⊤, the "infinity" initial value). -/
def minResWalk (g : Graph) (fl : FlowState) (pred : String → Option Step)
    (s : String) : ℕ → String → WithTop ℤ → Option (WithTop ℤ)
  | 0, v, acc => if v = s then some acc else none
  | fuel + 1, v, acc =>
      if v = s then some acc
      else
        match pred v with
        | none => none
        | some st =>
            minResWalk g fl pred s fuel (stepSource g st)
              (min acc (residualOf g fl st))

/-- Modelled from the spec: `findMinResidualAlongPath` — walk backward from
sink to source via predecessor-edge pointers and return the minimum residual
capacity observed over all traversed edges (§4.2). -/
def findMinResidualAlongPath (g : Graph) (fl : FlowState)
    (pred : String → Option Step) (s t : String) : Option (WithTop ℤ) :=
  minResWalk g fl pred s g.vertices.length t ⊤

/-- Overwrite the flow of edge `i` by adding `d`. -/
def bump (i : ℕ) (d : ℤ) (fl : FlowState) : FlowState :=
  fun j => if j = i then fl i + d else fl j

/-- Modelled from the spec: the per-edge update of flow augmentation —
increase the edge's flow by `b` when traversed forward, decrease the
counterpart's flow by `b` when traversed as a residual/reverse edge (§4.3). -/
def bumpStep (b : ℤ) (st : Step) (fl : FlowState) : FlowState :=
  bump st.idx (if st.fwd then b else -b) fl

/-- Apply the augmentation updates of a step list in order. -/
def applySteps (b : ℤ) (p : List Step) (fl : FlowState) : FlowState :=
  p.foldl (fun f st => bumpStep b st f) fl

/-- The backward walk of `augmentFlowAlongPath`, applying one `bumpStep` per
traversed predecessor edge. -/
def augmentWalk (g : Graph) (pred : String → Option Step) (b : ℤ) (s : String) :
    ℕ → String → FlowState → Option FlowState
  | 0, v, fl => if v = s then some fl else none
  | fuel + 1, v, fl =>
      if v = s then some fl
      else
        match pred v with
        | none => none
        | some st => augmentWalk g pred b s fuel (stepSource g st) (bumpStep b st fl)

/-- Modelled from the spec: `augmentFlowAlongPath` — walk backward from sink
to source via predecessor-edge pointers and update each traversed edge's flow
by the bottleneck amount (§4.3). -/
def augmentFlowAlongPath (g : Graph) (pred : String → Option Step) (b : ℤ)
    (s t : String) (fl : FlowState) : Option FlowState :=
  augmentWalk g pred b s g.vertices.length t fl

/-- Modelled from the spec: the Edmonds-Karp loop `SEARCHING ⇄ AUGMENTING`
(§4.4): search for an augmenting path; if found, compute the bottleneck and
augment, then loop; if not, stop. Fuel-driven; the driver supplies enough
fuel for the loop to reach its natural exit. -/
def ekLoop (g : Graph) (excl : Exclusion) (s t : String) :
    ℕ → FlowState → FlowState
  | 0, fl => fl
  | fuel + 1, fl =>
      let st := findAugmentingPathEx g excl fl s t
      if t ∈ st.visited then
        match findMinResidualAlongPath g fl st.pred s t with
        | none => fl
        | some b =>
            match augmentFlowAlongPath g st.pred (WithTop.untop' 0 b) s t fl with
            | none => fl
            | some fl' => ekLoop g excl s t fuel fl'
      else fl

/-- Fuel for the driver loop: one more than the total capacity. Each
augmentation raises the flow value by at least 1, and the value is bounded by
the total capacity, so this fuel always reaches the natural exit. -/
def ekFuel (g : Graph) : ℕ := ((g.edges.map Edge.capacity).sum).toNat + 1

/-- Modelled from the spec: the Max-Flow Driver (§4.4), generic in the
exclusion. It validates the designated source and sink codes (reported
failure when absent, computation aborted), resets all edge flows to zero
(`INIT`), and runs the Edmonds-Karp loop. -/
def edmondsKarpFrom (g : Graph) (excl : Exclusion) (s t : String)
    (fl : FlowState) : Except String FlowState :=
  if s ∈ g.vertices ∧ t ∈ g.vertices then
    Except.ok (ekLoop g excl s t (ekFuel g) zeroFlow)
  else Except.error "Invalid source and/or target vertex"

/-- Modelled from the spec: `edmondsKarp`, the unrestricted driver. -/
def edmondsKarp (g : Graph) (s t : String) (fl : FlowState) :
    Except String FlowState :=
  edmondsKarpFrom g .nothing s t fl

/-- Modelled from the spec: `edmondsKarpWithDeactivatedVertex`. -/
def edmondsKarpWithDeactivatedVertex (g : Graph) (deactivated : String)
    (s t : String) (fl : FlowState) : Except String FlowState :=
  edmondsKarpFrom g (.vertex deactivated) s t fl

/-- Modelled from the spec: `edmondsKarpWithDeactivatedEdge`. -/
def edmondsKarpWithDeactivatedEdge (g : Graph)
    (servicePointA servicePointB : String) (unidirectional : Bool)
    (s t : String) (fl : FlowState) : Except String FlowState :=
  edmondsKarpFrom g (.pipe servicePointA servicePointB unidirectional) s t fl

/-- The graph's flow fields after a driver call: unchanged when the call
reports a failure, the computed flows when it succeeds. -/
def graphStateAfter (g : Graph) (excl : Exclusion) (s t : String)
    (fl : FlowState) : FlowState :=
  match edmondsKarpFrom g excl s t fl with
  | .error _ => fl
  | .ok fl' => fl'

/-! ### Observables: flow sums, feasibility, conservation -/

/-- Sum of `f` over indices `0, …, n-1`. -/
def sumRange (n : ℕ) (f : ℕ → ℤ) : ℤ := ((List.range n).map f).sum

/-- Sum of flow on the edges leaving `v`. -/
def outflow (g : Graph) (fl : FlowState) (v : String) : ℤ :=
  sumRange g.edges.length (fun i => if (g.edge i).orig = v then fl i else 0)

/-- Sum of flow on the edges entering `v`. -/
def inflow (g : Graph) (fl : FlowState) (v : String) : ℤ :=
  sumRange g.edges.length (fun i => if (g.edge i).dest = v then fl i else 0)

/-- Net flow out of a vertex. -/
def excess (g : Graph) (fl : FlowState) (v : String) : ℤ :=
  outflow g fl v - inflow g fl v

/-- Modelled from the spec: "total flow is the sum of flow on all edges
leaving the source" (§4.4). -/
def totalFlow (g : Graph) (fl : FlowState) (s : String) : ℤ :=
  outflow g fl s

/-- Well-formed graph: distinct station codes, edge endpoints belonging to
the vertex set, and non-negative capacities (§3, §4.4 caller obligations). -/
def WF (g : Graph) : Prop :=
  g.vertices.Nodup ∧
    ∀ e ∈ g.edges, e.orig ∈ g.vertices ∧ e.dest ∈ g.vertices ∧ 0 ≤ e.capacity

/-- Capacity constraint: `0 ≤ flow ≤ capacity` on every edge (§3, §8). -/
def Feasible (g : Graph) (fl : FlowState) : Prop :=
  ∀ i < g.edges.length, 0 ≤ fl i ∧ fl i ≤ (g.edge i).capacity

/-- Flow conservation at every vertex other than source and sink (§3, §8). -/
def Conserves (g : Graph) (s t : String) (fl : FlowState) : Prop :=
  ∀ v ∈ g.vertices, v ≠ s → v ≠ t → excess g fl v = 0

/-- `p` is a predecessor-edge chain leading from `v` back to `s`. -/
def Chain (g : Graph) (s : String) : String → List Step → Prop
  | v, [] => v = s
  | v, st :: p => stepTarget g st = v ∧ Chain g s (stepSource g st) p

/-- The vertex sequence of a chain, starting at its sink end. -/
def chainVerts (g : Graph) (v : String) (p : List Step) : List String :=
  v :: p.map (stepSource g)

/-- Every step of the path is a real edge traversed with positive residual. -/
def ValidPath (g : Graph) (fl : FlowState) (p : List Step) : Prop :=
  ∀ st ∈ p, st.idx < g.edges.length ∧ 0 < residualOf g fl st

/-- The flow state mid-run: after `i` completed augmentations from the fresh
all-zero state, plus the first `k` single-edge updates of the next
augmentation (the next augmentation applies its updates in exactly this
order, sink end first). Observes every state the driver passes through. -/
def ekMid (g : Graph) (excl : Exclusion) (s t : String) (i k : ℕ) : FlowState :=
  let fl := ekLoop g excl s t i zeroFlow
  let st := findAugmentingPathEx g excl fl s t
  if t ∈ st.visited then
    match walkPath g st.pred s g.vertices.length t,
        findMinResidualAlongPath g fl st.pred s t with
    | some p, some b => applySteps (WithTop.untop' 0 b) (List.take k p) fl
    | _, _ => fl
  else fl

/-- No flow enters the source (holds throughout a driver run; used to equate
the net flow out of the source with `totalFlow`). -/
def InflowZero (g : Graph) (s : String) (fl : FlowState) : Prop :=
  ∀ i < g.edges.length, (g.edge i).dest = s → fl i = 0

/-- The invariant the driver loop maintains on the flow state. -/
def EKInv (g : Graph) (s t : String) (fl : FlowState) : Prop :=
  Feasible g fl ∧ Conserves g s t fl ∧ InflowZero g s fl

/-- A flow of maximum value: feasible, conserving, and of value at least that
of every feasible conserving flow. -/
def IsMaxFlow (g : Graph) (s t : String) (fl : FlowState) : Prop :=
  Feasible g fl ∧ Conserves g s t fl ∧
    ∀ fl', Feasible g fl' → Conserves g s t fl' → excess g fl' s ≤ excess g fl s

/-- The endpoint pair `(a, b)` matches no edge of the graph, in either
orientation. -/
def NoEdgeBetween (g : Graph) (a b : String) : Prop :=
  ∀ e ∈ g.edges, ¬(e.orig = a ∧ e.dest = b) ∧ ¬(e.orig = b ∧ e.dest = a)

/-- The bottleneck of a step list: minimum residual, starting from ⊤. -/
def mRes (g : Graph) (fl : FlowState) (p : List Step) : WithTop ℤ :=
  p.foldl (fun a st => min a ((residualOf g fl st : ℤ) : WithTop ℤ)) ⊤

/-- The states a BFS run passes through: `b` is reachable from `a` when the
loop, started at `a`, goes through `b` after zero or more iterations. -/
inductive BFSReaches (g : Graph) (excl : Exclusion) (fl : FlowState)
    (t : String) : SearchState → SearchState → Prop
  | refl (st : SearchState) : BFSReaches g excl fl t st st
  | head {a b c : SearchState} : bfsStep g excl fl t a = some b →
      BFSReaches g excl fl t b c → BFSReaches g excl fl t a c

/-- The core invariant of the augmenting-path search: visited codes are
distinct station codes, the queue holds visited vertices, the source is
visited, and every visited vertex has a valid, cycle-free predecessor chain
back to the source lying inside the visited set. -/
structure CoreInv (g : Graph) (fl : FlowState) (s : String)
    (st : SearchState) : Prop where
  nodup : st.visited.Nodup
  vsub : ∀ v ∈ st.visited, v ∈ g.vertices
  qsub : ∀ v ∈ st.queue, v ∈ st.visited
  start : s ∈ st.visited
  predOK : ∀ v ∈ st.visited, ∃ p,
    walkPath g st.pred s st.visited.length v = some p ∧
    Chain g s v p ∧ ValidPath g fl p ∧ (chainVerts g v p).Nodup ∧
    ∀ x ∈ chainVerts g v p, x ∈ st.visited

/-- Every visited vertex is still queued or fully processed: all its
traversable incident steps lead into the visited set. -/
def Closed (g : Graph) (excl : Exclusion) (fl : FlowState)
    (st : SearchState) : Prop :=
  ∀ v ∈ st.visited, v ∈ st.queue ∨
    ∀ e ∈ incidentSteps g v, 0 < residualOf g fl e →
      skipStep g excl e = false → stepTarget g e ∈ st.visited

/-- The full invariant of the augmenting-path search. -/
structure SearchInv (g : Graph) (excl : Exclusion) (fl : FlowState)
    (s : String) (st : SearchState) : Prop where
  core : CoreInv g fl s st
  closed : Closed g excl fl st

/-- A small linear network (source → A → sink, capacities 5 and 3) used to
instantiate the theorems on concrete data. -/
def gLin : Graph :=
  ⟨["s", "A", "t"], [⟨"s", "A", 5⟩, ⟨"A", "t", 3⟩]⟩

/-! ### Basic lemmas about edges, steps and incidence -/

theorem edge_mem (g : Graph) {i : ℕ} (h : i < g.edges.length) :
    g.edge i ∈ g.edges := by
  have := List.getD_eq_get g.edges ⟨"", "", 0⟩ h
  rw [Graph.edge, this]
  exact List.get_mem _ _ _

theorem mem_incidentSteps {g : Graph} {v : String} {e : Step} :
    e ∈ incidentSteps g v ↔ e.idx < g.edges.length ∧
      ((e.fwd = true ∧ (g.edge e.idx).orig = v) ∨
        (e.fwd = false ∧ (g.edge e.idx).dest = v)) := by
  simp only [incidentSteps, forwardSteps, reverseSteps, List.mem_append,
    List.mem_map, List.mem_filter, List.mem_range, decide_eq_true_eq]
  constructor
  · rintro (⟨i, ⟨hi, ho⟩, rfl⟩ | ⟨i, ⟨hi, ho⟩, rfl⟩)
    · exact ⟨hi, Or.inl ⟨rfl, ho⟩⟩
    · exact ⟨hi, Or.inr ⟨rfl, ho⟩⟩
  · rintro ⟨hi, ⟨hf, ho⟩ | ⟨hf, ho⟩⟩
    · exact Or.inl ⟨e.idx, ⟨hi, ho⟩, by cases e; simp_all⟩
    · exact Or.inr ⟨e.idx, ⟨hi, ho⟩, by cases e; simp_all⟩

theorem incident_idx_lt {g : Graph} {v : String} {e : Step}
    (h : e ∈ incidentSteps g v) : e.idx < g.edges.length :=
  (mem_incidentSteps.1 h).1

theorem stepSource_of_incident {g : Graph} {v : String} {e : Step}
    (h : e ∈ incidentSteps g v) : stepSource g e = v := by
  rcases mem_incidentSteps.1 h with ⟨-, ⟨hf, ho⟩ | ⟨hf, ho⟩⟩ <;>
    simp [stepSource, hf, ho]

theorem stepTarget_mem_vertices {g : Graph} (hwf : WF g) {e : Step}
    (h : e.idx < g.edges.length) : stepTarget g e ∈ g.vertices := by
  have hm := edge_mem g h
  rcases hwf.2 _ hm with ⟨ho, hd, -⟩
  unfold stepTarget
  split <;> assumption

theorem stepSource_mem_vertices {g : Graph} (hwf : WF g) {e : Step}
    (h : e.idx < g.edges.length) : stepSource g e ∈ g.vertices := by
  have hm := edge_mem g h
  rcases hwf.2 _ hm with ⟨ho, hd, -⟩
  unfold stepSource
  split <;> assumption

theorem skipStep_nothing (g : Graph) (e : Step) :
    skipStep g .nothing e = false := rfl

/-! ### Lemmas about `testAndVisitEx` -/

theorem tav_of_skip {g : Graph} {excl : Exclusion} {fl : FlowState}
    {st : SearchState} {e : Step}
    (h : stepTarget g e ∈ st.visited ∨ residualOf g fl e ≤ 0 ∨
      skipStep g excl e = true) :
    testAndVisitEx g excl fl st e = st := by
  unfold testAndVisitEx
  simp only [h, if_pos]

theorem tav_of_visit {g : Graph} {excl : Exclusion} {fl : FlowState}
    {st : SearchState} {e : Step}
    (h : ¬(stepTarget g e ∈ st.visited ∨ residualOf g fl e ≤ 0 ∨
      skipStep g excl e = true)) :
    testAndVisitEx g excl fl st e =
      { visited := st.visited ++ [stepTarget g e]
        queue := st.queue ++ [stepTarget g e]
        pred := fun x => if x = stepTarget g e then some e else st.pred x } := by
  unfold testAndVisitEx
  simp only [h, if_neg, not_false_iff]

theorem tav_append {g : Graph} {excl : Exclusion} {fl : FlowState}
    (st : SearchState) (e : Step) :
    ∃ l, (testAndVisitEx g excl fl st e).visited = st.visited ++ l ∧
      (testAndVisitEx g excl fl st e).queue = st.queue ++ l ∧
      (l = [] ∨ l = [stepTarget g e]) := by
  by_cases h : stepTarget g e ∈ st.visited ∨ residualOf g fl e ≤ 0 ∨
      skipStep g excl e = true
  · exact ⟨[], by simp [tav_of_skip h]⟩
  · exact ⟨[stepTarget g e], by simp [tav_of_visit h]⟩

theorem tav_pred_frozen {g : Graph} {excl : Exclusion} {fl : FlowState}
    {st : SearchState} {e : Step} {x : String} (hx : x ∈ st.visited) :
    (testAndVisitEx g excl fl st e).pred x = st.pred x := by
  by_cases h : stepTarget g e ∈ st.visited ∨ residualOf g fl e ≤ 0 ∨
      skipStep g excl e = true
  · rw [tav_of_skip h]
  · rw [tav_of_visit h]
    have : x ≠ stepTarget g e := by
      rintro rfl
      exact h (Or.inl hx)
    simp [this]

/-! ### Lemmas about predecessor-chain walks -/

theorem chainVerts_cons (g : Graph) (v : String) (st : Step) (p : List Step) :
    chainVerts g v (st :: p) = v :: chainVerts g (stepSource g st) p := by
  simp [chainVerts]

theorem walkPath_self (g : Graph) (pred : String → Option Step) (s : String)
    (fuel : ℕ) : walkPath g pred s fuel s = some [] := by
  cases fuel <;> simp [walkPath]

theorem walkPath_mono {g : Graph} {pred : String → Option Step} {s : String} :
    ∀ {fuel fuel' : ℕ} {v : String} {p : List Step}, fuel ≤ fuel' →
      walkPath g pred s fuel v = some p → walkPath g pred s fuel' v = some p := by
  intro fuel
  induction fuel with
  | zero =>
    intro fuel' v p _ h
    simp only [walkPath] at h
    split at h
    next hvs =>
      cases h
      subst hvs
      exact walkPath_self _ _ _ _
    next => cases h
  | succ n ih =>
    intro fuel' v p hle h
    obtain ⟨m, rfl⟩ : ∃ m, fuel' = m + 1 := ⟨fuel' - 1, by omega⟩
    by_cases hvs : v = s
    · subst hvs
      rw [walkPath_self] at h
      cases h
      exact walkPath_self _ _ _ _
    · simp only [walkPath, if_neg hvs] at h ⊢
      cases hpv : pred v with
      | none => simp [hpv] at h
      | some st =>
        simp only [hpv] at h ⊢
        cases hw : walkPath g pred s n (stepSource g st) with
        | none => simp [hw] at h
        | some q =>
          simp only [hw, Option.map_some'] at h
          rw [ih (by omega) hw, Option.map_some']
          exact h

theorem walkPath_congr {g : Graph} {pred pred' : String → Option Step}
    {s : String} :
    ∀ {fuel : ℕ} {v : String} {p : List Step},
      walkPath g pred s fuel v = some p →
      (∀ x ∈ chainVerts g v p, pred' x = pred x) →
      walkPath g pred' s fuel v = some p := by
  intro fuel
  induction fuel with
  | zero =>
    intro v p h _
    simp only [walkPath] at h ⊢
    split at h <;> simp_all
  | succ n ih =>
    intro v p h hagree
    by_cases hvs : v = s
    · subst hvs
      rw [walkPath_self] at h
      cases h
      exact walkPath_self _ _ _ _
    · have hv : pred' v = pred v := hagree v (by simp [chainVerts])
      simp only [walkPath, if_neg hvs, hv] at h ⊢
      cases hpv : pred v with
      | none => simp [hpv] at h
      | some st =>
        simp only [hpv] at h ⊢
        cases hw : walkPath g pred s n (stepSource g st) with
        | none => simp [hw] at h
        | some q =>
          simp only [hw, Option.map_some'] at h
          cases h
          have hsub : ∀ x ∈ chainVerts g (stepSource g st) q, pred' x = pred x := by
            intro x hx
            exact hagree x (by rw [chainVerts_cons]; exact List.mem_cons_of_mem _ hx)
          rw [ih hw hsub, Option.map_some']

theorem minResWalk_eq {g : Graph} {fl : FlowState}
    {pred : String → Option Step} {s : String} :
    ∀ {fuel : ℕ} {v : String} {p : List Step}, walkPath g pred s fuel v = some p →
      ∀ acc, minResWalk g fl pred s fuel v acc =
        some (p.foldl (fun a st => min a ((residualOf g fl st : ℤ) : WithTop ℤ)) acc) := by
  intro fuel
  induction fuel with
  | zero =>
    intro v p h acc
    simp only [walkPath] at h
    simp only [minResWalk]
    split at h <;> split <;> simp_all
  | succ n ih =>
    intro v p h acc
    by_cases hvs : v = s
    · subst hvs
      rw [walkPath_self] at h
      cases h
      simp [minResWalk]
    · simp only [walkPath, if_neg hvs] at h
      simp only [minResWalk, if_neg hvs]
      cases hpv : pred v with
      | none => simp [hpv] at h
      | some st =>
        simp only [hpv] at h ⊢
        cases hw : walkPath g pred s n (stepSource g st) with
        | none => simp [hw] at h
        | some q =>
          simp only [hw, Option.map_some'] at h
          cases h
          rw [ih hw]
          rfl

theorem augmentWalk_eq {g : Graph} {pred : String → Option Step} {b : ℤ}
    {s : String} :
    ∀ {fuel : ℕ} {v : String} {p : List Step}, walkPath g pred s fuel v = some p →
      ∀ fl, augmentWalk g pred b s fuel v fl = some (applySteps b p fl) := by
  intro fuel
  induction fuel with
  | zero =>
    intro v p h fl
    simp only [walkPath] at h
    simp only [augmentWalk]
    split at h <;> split <;> simp_all [applySteps]
  | succ n ih =>
    intro v p h fl
    by_cases hvs : v = s
    · subst hvs
      rw [walkPath_self] at h
      cases h
      simp [augmentWalk, applySteps]
    · simp only [walkPath, if_neg hvs] at h
      simp only [augmentWalk, if_neg hvs]
      cases hpv : pred v with
      | none => simp [hpv] at h
      | some st =>
        simp only [hpv] at h ⊢
        cases hw : walkPath g pred s n (stepSource g st) with
        | none => simp [hw] at h
        | some q =>
          simp only [hw, Option.map_some'] at h
          cases h
          rw [ih hw]
          rfl

/-! ### Structural lemmas about chains -/

theorem Chain_nil {g : Graph} {s v : String} : Chain g s v [] ↔ v = s := Iff.rfl

theorem Chain_cons {g : Graph} {s v : String} {st : Step} {p : List Step} :
    Chain g s v (st :: p) ↔
      stepTarget g st = v ∧ Chain g s (stepSource g st) p := Iff.rfl

theorem mem_of_getLast_eq {l : List String} {a : String}
    (h : l.getLast? = some a) : a ∈ l := by
  induction l with
  | nil => cases h
  | cons x xs ih =>
    cases xs with
    | nil =>
      simp only [List.getLast?_singleton, Option.some_inj] at h
      simp [h]
    | cons y ys =>
      rw [List.getLast?_cons_cons] at h
      exact List.mem_cons_of_mem _ (ih h)

theorem chain_getLast {g : Graph} {s : String} :
    ∀ {p : List Step} {v : String}, Chain g s v p →
      (chainVerts g v p).getLast? = some s := by
  intro p
  induction p with
  | nil =>
    intro v h
    rw [Chain_nil] at h
    simp [chainVerts, h]
  | cons e rest ih =>
    intro v h
    rw [Chain_cons] at h
    rw [chainVerts_cons]
    have : chainVerts g (stepSource g e) rest =
        stepSource g e :: rest.map (stepSource g) := rfl
    rw [this, List.getLast?_cons_cons, ← this]
    exact ih h.2

theorem chain_head_ne {g : Graph} {s v : String} {e : Step} {p : List Step}
    (h : Chain g s v (e :: p)) (hnd : (chainVerts g v (e :: p)).Nodup) :
    v ≠ s := by
  intro hvs
  have hlast := chain_getLast h
  rw [chainVerts_cons] at hlast hnd
  have hcv : chainVerts g (stepSource g e) p =
      stepSource g e :: p.map (stepSource g) := rfl
  rw [hcv, List.getLast?_cons_cons, ← hcv] at hlast
  have hmem : s ∈ chainVerts g (stepSource g e) p := mem_of_getLast_eq hlast
  rw [← hvs] at hmem
  exact (List.nodup_cons.1 hnd).1 hmem

theorem chain_target_ne {g : Graph} {s : String} :
    ∀ {p : List Step} {v : String}, Chain g s v p →
      (chainVerts g v p).Nodup → ∀ st ∈ p, stepTarget g st ≠ s := by
  intro p
  induction p with
  | nil => intro v _ _ st h; cases h
  | cons e rest ih =>
    intro v h hnd st hst
    rcases List.mem_cons.1 hst with rfl | hst'
    · rw [(Chain_cons.1 h).1]
      exact chain_head_ne h hnd
    · rw [chainVerts_cons] at hnd
      exact ih (Chain_cons.1 h).2 (List.nodup_cons.1 hnd).2 st hst'

theorem chain_target_mem {g : Graph} {s : String} :
    ∀ {p : List Step} {v : String}, Chain g s v p →
      ∀ st ∈ p, stepTarget g st ∈ chainVerts g v p := by
  intro p
  induction p with
  | nil => intro v _ st h; cases h
  | cons e rest ih =>
    intro v h st hst
    rw [chainVerts_cons]
    rcases List.mem_cons.1 hst with rfl | hst'
    · rw [(Chain_cons.1 h).1]
      exact List.mem_cons_self _ _
    · exact List.mem_cons_of_mem _ (ih (Chain_cons.1 h).2 st hst')

theorem chain_source_mem {g : Graph} {v : String} {p : List Step} {st : Step}
    (hst : st ∈ p) : stepSource g st ∈ chainVerts g v p :=
  List.mem_cons_of_mem _ (List.mem_map_of_mem _ hst)

theorem step_same_idx_ends {g : Graph} {a b : Step} (h : a.idx = b.idx) :
    stepTarget g a = stepTarget g b ∨ stepTarget g a = stepSource g b := by
  unfold stepTarget stepSource
  rw [h]
  cases hb : b.fwd <;> cases ha : a.fwd <;> simp

theorem chain_idx_pairwise {g : Graph} {s : String} :
    ∀ {p : List Step} {v : String}, Chain g s v p →
      (chainVerts g v p).Nodup → p.Pairwise (fun a b => a.idx ≠ b.idx) := by
  intro p
  induction p with
  | nil => intro v _ _; exact List.Pairwise.nil
  | cons e rest ih =>
    intro v h hnd
    rw [Chain_cons] at h
    rw [chainVerts_cons] at hnd
    refine List.Pairwise.cons ?_ (ih h.2 (List.nodup_cons.1 hnd).2)
    intro b hb heq
    have hv : v = stepTarget g b ∨ v = stepSource g b := by
      rw [← h.1]
      exact step_same_idx_ends heq
    have hvmem : v ∈ chainVerts g (stepSource g e) rest := by
      rcases hv with hv | hv
      · rw [hv]; exact chain_target_mem h.2 b hb
      · rw [hv]; exact chain_source_mem hb
    exact (List.nodup_cons.1 hnd).1 hvmem

/-! ### Lemmas about flow updates along a path -/

theorem bump_self (j : ℕ) (d : ℤ) (fl : FlowState) : bump j d fl j = fl j + d := by
  simp [bump]

theorem bump_other {i j : ℕ} (h : i ≠ j) (d : ℤ) (fl : FlowState) :
    bump j d fl i = fl i := by
  simp [bump, h]

theorem bumpStep_at (b : ℤ) (st : Step) (fl : FlowState) :
    bumpStep b st fl st.idx = fl st.idx + (if st.fwd then b else -b) := by
  simp [bumpStep, bump]

theorem bumpStep_other {i : ℕ} {st : Step} (h : i ≠ st.idx) (b : ℤ)
    (fl : FlowState) : bumpStep b st fl i = fl i := by
  simp [bumpStep, bump, h]

theorem applySteps_nil (b : ℤ) (fl : FlowState) : applySteps b [] fl = fl := rfl

theorem applySteps_cons (b : ℤ) (st : Step) (p : List Step) (fl : FlowState) :
    applySteps b (st :: p) fl = applySteps b p (bumpStep b st fl) := rfl

theorem applySteps_not_mem {b : ℤ} {i : ℕ} :
    ∀ {p : List Step} {fl : FlowState}, (∀ st ∈ p, st.idx ≠ i) →
      applySteps b p fl i = fl i := by
  intro p
  induction p with
  | nil => intro fl _; rfl
  | cons e rest ih =>
    intro fl h
    rw [applySteps_cons, ih (fun st hst => h st (List.mem_cons_of_mem _ hst)),
      bumpStep_other (fun he => h e (List.mem_cons_self _ _) he.symm)]

theorem applySteps_mem {b : ℤ} :
    ∀ {p : List Step} {fl : FlowState} {st : Step},
      p.Pairwise (fun a c => a.idx ≠ c.idx) → st ∈ p →
      applySteps b p fl st.idx = fl st.idx + (if st.fwd then b else -b) := by
  intro p
  induction p with
  | nil => intro fl st _ h; cases h
  | cons e rest ih =>
    intro fl st hpw hst
    have hpw' := List.pairwise_cons.1 hpw
    rcases List.mem_cons.1 hst with rfl | hst'
    · rw [applySteps_cons,
        applySteps_not_mem (fun c hc hceq => hpw'.1 c hc hceq.symm),
        bumpStep_at]
    · rw [applySteps_cons, ih hpw'.2 hst',
        bumpStep_other (fun hse => hpw'.1 st hst' hse.symm)]

/-! ### Sums, excess and conservation -/

theorem sumRange_eq (n : ℕ) (f : ℕ → ℤ) :
    sumRange n f = ∑ i ∈ Finset.range n, f i := by
  induction n with
  | zero => simp [sumRange]
  | succ m ih =>
    rw [sumRange, List.range_succ, List.map_append, List.sum_append,
      Finset.sum_range_succ, ← sumRange, ih]
    simp

theorem sumRange_congr {n : ℕ} {f f' : ℕ → ℤ} (h : ∀ i < n, f i = f' i) :
    sumRange n f = sumRange n f' := by
  rw [sumRange_eq, sumRange_eq]
  exact Finset.sum_congr rfl (fun i hi => h i (Finset.mem_range.1 hi))

theorem sumRange_zero {n : ℕ} {f : ℕ → ℤ} (h : ∀ i < n, f i = 0) :
    sumRange n f = 0 := by
  rw [sumRange_eq]
  exact Finset.sum_eq_zero (fun i hi => h i (Finset.mem_range.1 hi))

theorem sumRange_add (n : ℕ) (f h : ℕ → ℤ) :
    sumRange n (fun i => f i + h i) = sumRange n f + sumRange n h := by
  rw [sumRange_eq, sumRange_eq, sumRange_eq]
  exact Finset.sum_add_distrib

theorem sumRange_single {n j : ℕ} (c : ℤ) (hj : j < n) :
    sumRange n (fun i => if i = j then c else 0) = c := by
  rw [sumRange_eq]
  rw [Finset.sum_ite_eq' (Finset.range n) j (fun _ => c)]
  simp [hj]

theorem sumRange_nonneg {n : ℕ} {f : ℕ → ℤ} (h : ∀ i < n, 0 ≤ f i) :
    0 ≤ sumRange n f := by
  rw [sumRange_eq]
  exact Finset.sum_nonneg (fun i hi => h i (Finset.mem_range.1 hi))

theorem sumRange_le {n : ℕ} {f f' : ℕ → ℤ} (h : ∀ i < n, f i ≤ f' i) :
    sumRange n f ≤ sumRange n f' := by
  rw [sumRange_eq, sumRange_eq]
  exact Finset.sum_le_sum (fun i hi => h i (Finset.mem_range.1 hi))

theorem excess_zeroFlow (g : Graph) (v : String) : excess g zeroFlow v = 0 := by
  unfold excess outflow inflow
  rw [sumRange_zero (fun i _ => by simp [zeroFlow]),
    sumRange_zero (fun i _ => by simp [zeroFlow])]
  ring

theorem outflow_bump {g : Graph} {j : ℕ} (hj : j < g.edges.length) (d : ℤ)
    (fl : FlowState) (v : String) :
    outflow g (bump j d fl) v =
      outflow g fl v + (if (g.edge j).orig = v then d else 0) := by
  unfold outflow
  have hpt : ∀ i, (if (g.edge i).orig = v then bump j d fl i else 0) =
      (if (g.edge i).orig = v then fl i else 0) +
        (if i = j then (if (g.edge j).orig = v then d else 0) else 0) := by
    intro i
    by_cases hij : i = j
    · subst hij
      by_cases ho : (g.edge i).orig = v <;> simp [ho, bump_self]
    · rw [bump_other hij]
      simp [hij]
  rw [sumRange_congr (fun i _ => hpt i), sumRange_add,
    sumRange_single _ hj]

theorem inflow_bump {g : Graph} {j : ℕ} (hj : j < g.edges.length) (d : ℤ)
    (fl : FlowState) (v : String) :
    inflow g (bump j d fl) v =
      inflow g fl v + (if (g.edge j).dest = v then d else 0) := by
  unfold inflow
  have hpt : ∀ i, (if (g.edge i).dest = v then bump j d fl i else 0) =
      (if (g.edge i).dest = v then fl i else 0) +
        (if i = j then (if (g.edge j).dest = v then d else 0) else 0) := by
    intro i
    by_cases hij : i = j
    · subst hij
      by_cases ho : (g.edge i).dest = v <;> simp [ho, bump_self]
    · rw [bump_other hij]
      simp [hij]
  rw [sumRange_congr (fun i _ => hpt i), sumRange_add,
    sumRange_single _ hj]

theorem excess_bumpStep {g : Graph} {st : Step}
    (hj : st.idx < g.edges.length) (b : ℤ) (fl : FlowState) (u : String) :
    excess g (bumpStep b st fl) u = excess g fl u +
      (if stepSource g st = u then b else 0) -
        (if stepTarget g st = u then b else 0) := by
  unfold bumpStep
  cases hf : st.fwd with
  | true =>
    unfold excess
    rw [outflow_bump hj, inflow_bump hj]
    simp only [stepSource, stepTarget, hf, if_pos]
    ring
  | false =>
    unfold excess
    rw [outflow_bump hj, inflow_bump hj]
    simp only [stepSource, stepTarget, hf, if_neg, Bool.false_eq_true,
      not_false_iff]
    by_cases ho : (g.edge st.idx).orig = u <;>
      by_cases hd : (g.edge st.idx).dest = u <;> simp [ho, hd] <;> ring

theorem excess_applySteps {g : Graph} {s : String} {b : ℤ} {u : String} :
    ∀ {p : List Step} {v : String} {fl : FlowState}, Chain g s v p →
      (∀ st ∈ p, st.idx < g.edges.length) →
      excess g (applySteps b p fl) u = excess g fl u +
        (if s = u then b else 0) - (if v = u then b else 0) := by
  intro p
  induction p with
  | nil =>
    intro v fl hch _
    rw [Chain_nil] at hch
    rw [applySteps_nil, hch]
    ring
  | cons e rest ih =>
    intro v fl hch hlt
    rw [Chain_cons] at hch
    rw [applySteps_cons,
      ih hch.2 (fun st hst => hlt st (List.mem_cons_of_mem _ hst)),
      excess_bumpStep (hlt e (List.mem_cons_self _ _)), ← hch.1]
    ring

theorem conserves_applySteps {g : Graph} {s t : String} {b : ℤ}
    {p : List Step} {fl : FlowState} (hcon : Conserves g s t fl)
    (hch : Chain g s t p) (hlt : ∀ st ∈ p, st.idx < g.edges.length) :
    Conserves g s t (applySteps b p fl) := by
  intro v hv hvs hvt
  rw [excess_applySteps hch hlt, hcon v hv hvs hvt,
    if_neg (fun h => hvs h.symm), if_neg (fun h => hvt h.symm)]
  ring

theorem value_applySteps {g : Graph} {s t : String} {b : ℤ}
    {p : List Step} {fl : FlowState} (hst : s ≠ t)
    (hch : Chain g s t p) (hlt : ∀ st ∈ p, st.idx < g.edges.length) :
    excess g (applySteps b p fl) s = excess g fl s + b := by
  rw [excess_applySteps hch hlt, if_pos rfl, if_neg (fun h => hst h.symm)]
  ring

theorem feasible_applySteps_take {g : Graph} {b : ℤ} {p : List Step}
    {fl : FlowState} (hfe : Feasible g fl) (hv : ValidPath g fl p)
    (hpw : p.Pairwise (fun a c => a.idx ≠ c.idx)) (hb0 : 0 ≤ b)
    (hble : ∀ st ∈ p, b ≤ residualOf g fl st) (k : ℕ) :
    Feasible g (applySteps b (p.take k) fl) := by
  intro i hi
  by_cases hex : ∃ st ∈ p.take k, st.idx = i
  · obtain ⟨st, hstk, hidx⟩ := hex
    have hstp : st ∈ p := List.mem_of_mem_take hstk
    have hpw' : (p.take k).Pairwise (fun a c => a.idx ≠ c.idx) :=
      hpw.sublist (List.take_sublist k p)
    have := @applySteps_mem b (p.take k) fl st hpw' hstk
    rw [hidx] at this
    rw [this, ← hidx]
    have hres := (hv st hstp).2
    have hbst := hble st hstp
    have hfl := hfe st.idx (hidx ▸ hi)
    cases hf : st.fwd with
    | true =>
      simp only [residualOf, hf, if_true] at hres hbst
      simp only [if_true]
      omega
    | false =>
      simp only [residualOf, hf, Bool.false_eq_true, if_false] at hres hbst
      simp only [Bool.false_eq_true, if_false]
      omega
  · push_neg at hex
    rw [applySteps_not_mem hex]
    exact hfe i hi

theorem inflowZero_applySteps {g : Graph} {s t : String} {b : ℤ}
    {p : List Step} {fl : FlowState} (hiz : InflowZero g s fl)
    (hch : Chain g s t p) (hnd : (chainVerts g t p).Nodup)
    (hv : ValidPath g fl p) : InflowZero g s (applySteps b p fl) := by
  intro i hi hdest
  have hnone : ∀ st ∈ p, st.idx ≠ i := by
    intro st hst hidx
    cases hf : st.fwd with
    | true =>
      have : stepTarget g st = s := by
        rw [stepTarget, if_pos hf, hidx, hdest]
      exact chain_target_ne hch hnd st hst this
    | false =>
      have hres := (hv st hst).2
      rw [residualOf] at hres
      simp only [hf, Bool.false_eq_true, if_false] at hres
      rw [hidx, hiz i hi hdest] at hres
      exact absurd hres (by norm_num)
  rw [applySteps_not_mem hnone]
  exact hiz i hi hdest

/-! ### BFS invariants -/

theorem nodup_length_le {α : Type} [DecidableEq α] {l l' : List α}
    (hnd : l.Nodup) (hsub : ∀ x ∈ l, x ∈ l') : l.length ≤ l'.length := by
  calc l.length = l.toFinset.card := (List.toFinset_card_of_nodup hnd).symm
    _ ≤ l'.toFinset.card := by
        apply Finset.card_le_card
        intro x hx
        rw [List.mem_toFinset] at hx ⊢
        exact hsub x hx
    _ ≤ l'.length := l'.toFinset_card_le

theorem foldl_tav_append (g : Graph) (excl : Exclusion) (fl : FlowState) :
    ∀ (es : List Step) (st : SearchState),
      ∃ l, (es.foldl (testAndVisitEx g excl fl) st).visited = st.visited ++ l ∧
        (es.foldl (testAndVisitEx g excl fl) st).queue = st.queue ++ l := by
  intro es
  induction es with
  | nil => intro st; exact ⟨[], by simp⟩
  | cons e rest ih =>
    intro st
    obtain ⟨l1, hv1, hq1, -⟩ := @tav_append g excl fl st e
    obtain ⟨l2, hv2, hq2⟩ := ih (testAndVisitEx g excl fl st e)
    refine ⟨l1 ++ l2, ?_, ?_⟩
    · rw [List.foldl_cons, hv2, hv1, List.append_assoc]
    · rw [List.foldl_cons, hq2, hq1, List.append_assoc]

theorem foldl_tav_visited_mono {g : Graph} {excl : Exclusion} {fl : FlowState}
    {es : List Step} {st : SearchState} {x : String} (hx : x ∈ st.visited) :
    x ∈ (es.foldl (testAndVisitEx g excl fl) st).visited := by
  obtain ⟨l, hv, -⟩ := foldl_tav_append g excl fl es st
  rw [hv]
  exact List.mem_append_left _ hx

theorem foldl_tav_queue_mono {g : Graph} {excl : Exclusion} {fl : FlowState}
    {es : List Step} {st : SearchState} {x : String} (hx : x ∈ st.queue) :
    x ∈ (es.foldl (testAndVisitEx g excl fl) st).queue := by
  obtain ⟨l, -, hq⟩ := foldl_tav_append g excl fl es st
  rw [hq]
  exact List.mem_append_left _ hx

theorem foldl_tav_pred_frozen {g : Graph} {excl : Exclusion} {fl : FlowState} :
    ∀ {es : List Step} {st : SearchState} {x : String}, x ∈ st.visited →
      (es.foldl (testAndVisitEx g excl fl) st).pred x = st.pred x := by
  intro es
  induction es with
  | nil => intro st x _; rfl
  | cons e rest ih =>
    intro st x hx
    rw [List.foldl_cons]
    have hx' : x ∈ (testAndVisitEx g excl fl st e).visited := by
      obtain ⟨l, hv, -, -⟩ := @tav_append g excl fl st e
      rw [hv]
      exact List.mem_append_left _ hx
    rw [ih hx', tav_pred_frozen hx]

theorem foldl_tav_processes {g : Graph} {excl : Exclusion} {fl : FlowState} :
    ∀ {es : List Step} {st : SearchState} {e : Step}, e ∈ es →
      0 < residualOf g fl e → skipStep g excl e = false →
      stepTarget g e ∈ (es.foldl (testAndVisitEx g excl fl) st).visited := by
  intro es
  induction es with
  | nil => intro st e he; cases he
  | cons e0 rest ih =>
    intro st e he hres hskip
    rw [List.foldl_cons]
    rcases List.mem_cons.1 he with rfl | he'
    · apply foldl_tav_visited_mono
      by_cases hg : stepTarget g e ∈ st.visited ∨ residualOf g fl e ≤ 0 ∨
          skipStep g excl e = true
      · rw [tav_of_skip hg]
        rcases hg with h | h | h
        · exact h
        · omega
        · rw [hskip] at h; cases h
      · rw [tav_of_visit hg]
        exact List.mem_append_right _ (List.mem_singleton_self _)
    · exact ih he' hres hskip

theorem foldl_tav_new_queued {g : Graph} {excl : Exclusion} {fl : FlowState} :
    ∀ {es : List Step} {st : SearchState} {u : String},
      u ∈ (es.foldl (testAndVisitEx g excl fl) st).visited →
      u ∈ st.visited ∨ u ∈ (es.foldl (testAndVisitEx g excl fl) st).queue := by
  intro es
  induction es with
  | nil => intro st u hu; exact Or.inl hu
  | cons e rest ih =>
    intro st u hu
    rw [List.foldl_cons] at hu ⊢
    rcases ih hu with hu' | hq
    · by_cases hg : stepTarget g e ∈ st.visited ∨ residualOf g fl e ≤ 0 ∨
          skipStep g excl e = true
      · rw [tav_of_skip hg] at hu'
        exact Or.inl hu'
      · rw [tav_of_visit hg] at hu'
        rcases List.mem_append.1 hu' with h | h
        · exact Or.inl h
        · refine Or.inr (foldl_tav_queue_mono ?_)
          rw [tav_of_visit hg]
          exact List.mem_append_right _ h
    · exact Or.inr hq

theorem tav_core {g : Graph} {excl : Exclusion} {fl : FlowState} {s : String}
    {st : SearchState} {e : Step} (hwf : WF g) (hcore : CoreInv g fl s st)
    (hidx : e.idx < g.edges.length) (hsrc : stepSource g e ∈ st.visited) :
    CoreInv g fl s (testAndVisitEx g excl fl st e) := by
  by_cases hg : stepTarget g e ∈ st.visited ∨ residualOf g fl e ≤ 0 ∨
      skipStep g excl e = true
  · rw [tav_of_skip hg]
    exact hcore
  · push_neg at hg
    obtain ⟨hwv, hres, hskipne⟩ := hg
    rw [tav_of_visit (by push_neg; exact ⟨hwv, hres, hskipne⟩)]
    have hwne : ∀ x ∈ st.visited, x ≠ stepTarget g e := by
      intro x hx hxe
      exact hwv (hxe ▸ hx)
    refine ⟨?_, ?_, ?_, ?_, ?_⟩
    · rw [List.nodup_append]
      refine ⟨hcore.nodup, List.nodup_singleton _, ?_⟩
      intro x hx hx1
      rw [List.mem_singleton] at hx1
      exact hwv (hx1 ▸ hx)
    · intro v hv
      rcases List.mem_append.1 hv with h | h
      · exact hcore.vsub v h
      · rw [List.mem_singleton.1 h]
        exact stepTarget_mem_vertices hwf hidx
    · intro v hv
      rcases List.mem_append.1 hv with h | h
      · exact List.mem_append_left _ (hcore.qsub v h)
      · exact List.mem_append_right _ h
    · exact List.mem_append_left _ hcore.start
    · intro v hv
      have hlen : (st.visited ++ [stepTarget g e]).length =
          st.visited.length + 1 := by simp
      rcases List.mem_append.1 hv with h | h
      · obtain ⟨p, hwp, hch, hval, hnd, hsub⟩ := hcore.predOK v h
        have hagree : ∀ x ∈ chainVerts g v p,
            (fun x => if x = stepTarget g e then some e else st.pred x) x =
              st.pred x := by
          intro x hx
          simp only [if_neg (hwne x (hsub x hx))]
        refine ⟨p, ?_, hch, hval, hnd, ?_⟩
        · rw [hlen]
          exact walkPath_mono (Nat.le_succ _) (walkPath_congr hwp hagree)
        · intro x hx
          exact List.mem_append_left _ (hsub x hx)
      · rw [List.mem_singleton.1 h]
        obtain ⟨p0, hwp0, hch0, hval0, hnd0, hsub0⟩ :=
          hcore.predOK (stepSource g e) hsrc
        have hagree : ∀ x ∈ chainVerts g (stepSource g e) p0,
            (fun x => if x = stepTarget g e then some e else st.pred x) x =
              st.pred x := by
          intro x hx
          simp only [if_neg (hwne x (hsub0 x hx))]
        have hwp0' := walkPath_congr hwp0 hagree
        have hwne_s : stepTarget g e ≠ s := by
          intro hse
          exact hwv (hse ▸ hcore.start)
        refine ⟨e :: p0, ?_, ⟨rfl, hch0⟩, ?_, ?_, ?_⟩
        · rw [hlen]
          simp only [walkPath, if_neg hwne_s, eq_self_iff_true, if_true]
          rw [hwp0', Option.map_some']
        · intro c hc
          rcases List.mem_cons.1 hc with rfl | hc'
          · exact ⟨hidx, by omega⟩
          · exact hval0 c hc'
        · rw [chainVerts_cons]
          refine List.nodup_cons.2 ⟨?_, hnd0⟩
          intro hmem
          exact hwv (hsub0 _ hmem)
        · intro x hx
          rw [chainVerts_cons] at hx
          rcases List.mem_cons.1 hx with rfl | hx'
          · exact List.mem_append_right _ (List.mem_singleton_self _)
          · exact List.mem_append_left _ (hsub0 x hx')

theorem foldl_tav_core {g : Graph} {excl : Exclusion} {fl : FlowState}
    {s v : String} (hwf : WF g) :
    ∀ {es : List Step} {st : SearchState}, CoreInv g fl s st →
      v ∈ st.visited → (∀ e ∈ es, e ∈ incidentSteps g v) →
      CoreInv g fl s (es.foldl (testAndVisitEx g excl fl) st) := by
  intro es
  induction es with
  | nil => intro st hcore _ _; exact hcore
  | cons e rest ih =>
    intro st hcore hv hes
    rw [List.foldl_cons]
    have he := hes e (List.mem_cons_self _ _)
    have hsrc : stepSource g e ∈ st.visited := by
      rw [stepSource_of_incident he]
      exact hv
    refine ih (tav_core hwf hcore (incident_idx_lt he) hsrc) ?_
      (fun e' he' => hes e' (List.mem_cons_of_mem _ he'))
    obtain ⟨l, hvv, -, -⟩ := @tav_append g excl fl st e
    rw [hvv]
    exact List.mem_append_left _ hv

theorem bfsStep_none {g : Graph} {excl : Exclusion} {fl : FlowState}
    {t : String} {st : SearchState} (h : bfsStep g excl fl t st = none) :
    t ∈ st.visited ∨ st.queue = [] := by
  unfold bfsStep at h
  split at h
  · left; assumption
  · split at h
    · right; assumption
    · cases h

theorem bfsStep_some {g : Graph} {excl : Exclusion} {fl : FlowState}
    {t : String} {st st' : SearchState}
    (h : bfsStep g excl fl t st = some st') :
    t ∉ st.visited ∧ ∃ v rest, st.queue = v :: rest ∧
      st' = (incidentSteps g v).foldl (testAndVisitEx g excl fl)
        ⟨st.visited, rest, st.pred⟩ := by
  unfold bfsStep at h
  split at h
  · cases h
  · next ht =>
    split at h
    · cases h
    · next v rest hq =>
      cases h
      exact ⟨ht, v, rest, hq, rfl⟩

theorem bfsStep_inv {g : Graph} {excl : Exclusion} {fl : FlowState}
    {s t : String} {st st' : SearchState} (hwf : WF g)
    (hinv : SearchInv g excl fl s st)
    (hstep : bfsStep g excl fl t st = some st') :
    SearchInv g excl fl s st' := by
  obtain ⟨ht, v, rest, hq, rfl⟩ := bfsStep_some hstep
  have hvmem : v ∈ st.visited := hinv.core.qsub v (by rw [hq]; exact List.mem_cons_self _ _)
  have hmid : CoreInv g fl s ⟨st.visited, rest, st.pred⟩ := by
    refine ⟨hinv.core.nodup, hinv.core.vsub, ?_, hinv.core.start,
      hinv.core.predOK⟩
    intro x hx
    exact hinv.core.qsub x (by rw [hq]; exact List.mem_cons_of_mem _ hx)
  refine ⟨foldl_tav_core hwf hmid hvmem (fun e he => he), ?_⟩
  intro u hu
  obtain ⟨l, hvl, hql⟩ :=
    foldl_tav_append g excl fl (incidentSteps g v) ⟨st.visited, rest, st.pred⟩
  rcases foldl_tav_new_queued hu with hold | hques
  · simp only at hold
    rcases hinv.closed u hold with hq' | hproc
    · rw [hq] at hq'
      rcases List.mem_cons.1 hq' with rfl | hrest
      · right
        intro e he hres hskip
        exact foldl_tav_processes he hres hskip
      · left
        rw [hql]
        exact List.mem_append_left _ hrest
    · right
      intro e he hres hskip
      rw [hvl]
      exact List.mem_append_left _ (hproc e he hres hskip)
  · exact Or.inl hques

theorem bfsLoop_inv {g : Graph} {excl : Exclusion} {fl : FlowState}
    {s t : String} (hwf : WF g) :
    ∀ {fuel : ℕ} {st : SearchState}, SearchInv g excl fl s st →
      SearchInv g excl fl s (bfsLoop g excl fl t fuel st) := by
  intro fuel
  induction fuel with
  | zero => intro st hinv; exact hinv
  | succ n ih =>
    intro st hinv
    rw [bfsLoop]
    cases hstep : bfsStep g excl fl t st with
    | none => exact hinv
    | some st' => exact ih (bfsStep_inv hwf hinv hstep)

theorem initState_inv {g : Graph} {excl : Exclusion} {fl : FlowState}
    {s : String} (hs : s ∈ g.vertices) :
    SearchInv g excl fl s (initState s) := by
  refine ⟨⟨?_, ?_, ?_, ?_, ?_⟩, ?_⟩
  · exact List.nodup_singleton s
  · intro v hv
    rw [List.mem_singleton.1 hv]
    exact hs
  · intro v hv
    exact hv
  · exact List.mem_singleton_self s
  · intro v hv
    rw [List.mem_singleton.1 hv]
    refine ⟨[], walkPath_self _ _ _ _, rfl, ?_, ?_, ?_⟩
    · intro c hc; cases hc
    · exact List.nodup_singleton s
    · intro x hx
      rw [List.mem_singleton.1 hx]
      exact List.mem_singleton_self s
  · intro v hv
    left
    exact hv

theorem bfsLoop_exit {g : Graph} {excl : Exclusion} {fl : FlowState}
    {s t : String} (hwf : WF g) :
    ∀ {fuel : ℕ} {st : SearchState}, SearchInv g excl fl s st →
      st.queue.length + (g.vertices.length - st.visited.length) ≤ fuel →
      (bfsLoop g excl fl t fuel st).queue = [] ∨
        t ∈ (bfsLoop g excl fl t fuel st).visited := by
  intro fuel
  induction fuel with
  | zero =>
    intro st _ hmu
    left
    rw [bfsLoop]
    exact List.length_eq_zero.1 (by omega)
  | succ n ih =>
    intro st hinv hmu
    rw [bfsLoop]
    cases hstep : bfsStep g excl fl t st with
    | none =>
      rcases bfsStep_none hstep with h | h
      · exact Or.inr h
      · exact Or.inl h
    | some st' =>
      have hinv' := bfsStep_inv hwf hinv hstep
      obtain ⟨ht, v, rest, hq, rfl⟩ := bfsStep_some hstep
      obtain ⟨l, hvl, hql⟩ :=
        foldl_tav_append g excl fl (incidentSteps g v) ⟨st.visited, rest, st.pred⟩
      refine ih hinv' ?_
      have hlen : (st.visited.length + l.length) ≤ g.vertices.length := by
        have hnd := hinv'.core.nodup
        have hsub := hinv'.core.vsub
        have := nodup_length_le hnd hsub
        rw [hvl] at this
        simpa using this
      have hqlen : st.queue.length = rest.length + 1 := by rw [hq]; rfl
      rw [hvl, hql]
      simp only [List.length_append]
      simp only at hlen ⊢
      omega

/-! ### The search as a whole: invariant, exit and extracted paths -/

theorem search_inv {g : Graph} {excl : Exclusion} {fl : FlowState}
    {s t : String} (hwf : WF g) (hs : s ∈ g.vertices) :
    SearchInv g excl fl s (findAugmentingPathEx g excl fl s t) :=
  bfsLoop_inv hwf (initState_inv hs)

theorem search_exit {g : Graph} {excl : Exclusion} {fl : FlowState}
    {s t : String} (hwf : WF g) (hs : s ∈ g.vertices) :
    (findAugmentingPathEx g excl fl s t).queue = [] ∨
      t ∈ (findAugmentingPathEx g excl fl s t).visited := by
  have hn : 1 ≤ g.vertices.length := List.length_pos.2 (List.ne_nil_of_mem hs)
  refine bfsLoop_exit hwf (initState_inv hs) ?_
  simp only [initState, List.length_singleton]
  omega

theorem search_found_path {g : Graph} {excl : Exclusion} {fl : FlowState}
    {s t : String} (hwf : WF g) (hs : s ∈ g.vertices)
    (hfound : t ∈ (findAugmentingPathEx g excl fl s t).visited) :
    ∃ p, walkPath g (findAugmentingPathEx g excl fl s t).pred s
        g.vertices.length t = some p ∧
      Chain g s t p ∧ ValidPath g fl p ∧ (chainVerts g t p).Nodup ∧
      (∀ st ∈ p, st.idx < g.edges.length) := by
  have hinv := @search_inv g excl fl s t hwf hs
  obtain ⟨p, hwp, hch, hval, hnd, -⟩ := hinv.core.predOK t hfound
  have hle : (findAugmentingPathEx g excl fl s t).visited.length ≤
      g.vertices.length :=
    nodup_length_le hinv.core.nodup hinv.core.vsub
  exact ⟨p, walkPath_mono hle hwp, hch, hval, hnd,
    fun st hst => (hval st hst).1⟩

/-! ### Bottleneck lemmas -/

theorem foldl_min_le_acc (g : Graph) (fl : FlowState) :
    ∀ (p : List Step) (acc : WithTop ℤ),
      p.foldl (fun a st => min a ((residualOf g fl st : ℤ) : WithTop ℤ)) acc ≤
        acc := by
  intro p
  induction p with
  | nil => intro acc; exact le_refl _
  | cons e rest ih =>
    intro acc
    rw [List.foldl_cons]
    exact le_trans (ih _) (min_le_left _ _)

theorem foldl_min_le_mem {g : Graph} {fl : FlowState} :
    ∀ {p : List Step} {st : Step}, st ∈ p → ∀ acc,
      p.foldl (fun a c => min a ((residualOf g fl c : ℤ) : WithTop ℤ)) acc ≤
        ((residualOf g fl st : ℤ) : WithTop ℤ) := by
  intro p
  induction p with
  | nil => intro st h; cases h
  | cons e rest ih =>
    intro st hst acc
    rw [List.foldl_cons]
    rcases List.mem_cons.1 hst with rfl | hst'
    · exact le_trans (foldl_min_le_acc g fl rest _) (min_le_right _ _)
    · exact ih hst' _

theorem foldl_min_ge {g : Graph} {fl : FlowState} {c : WithTop ℤ} :
    ∀ {p : List Step} {acc : WithTop ℤ},
      (∀ st ∈ p, c ≤ ((residualOf g fl st : ℤ) : WithTop ℤ)) → c ≤ acc →
      c ≤ p.foldl (fun a st => min a ((residualOf g fl st : ℤ) : WithTop ℤ)) acc := by
  intro p
  induction p with
  | nil => intro acc _ hacc; exact hacc
  | cons e rest ih =>
    intro acc hall hacc
    rw [List.foldl_cons]
    exact ih (fun st hst => hall st (List.mem_cons_of_mem _ hst))
      (le_min hacc (hall e (List.mem_cons_self _ _)))

theorem mRes_facts {g : Graph} {fl : FlowState} {p : List Step}
    (hval : ValidPath g fl p) (hne : p ≠ []) :
    1 ≤ WithTop.untop' 0 (mRes g fl p) ∧
      ∀ st ∈ p, WithTop.untop' 0 (mRes g fl p) ≤ residualOf g fl st := by
  have hone : ((1 : ℤ) : WithTop ℤ) ≤ mRes g fl p := by
    refine foldl_min_ge ?_ le_top
    intro st hst
    have := (hval st hst).2
    exact_mod_cast (by omega : (1 : ℤ) ≤ residualOf g fl st)
  have htop : mRes g fl p ≠ ⊤ := by
    obtain ⟨e, rest, rfl⟩ := List.exists_cons_of_ne_nil hne
    intro htop
    have hle := @foldl_min_le_mem g fl (e :: rest) e
      (List.mem_cons_self e rest) (⊤ : WithTop ℤ)
    rw [← mRes, htop] at hle
    exact WithTop.not_top_le_coe _ hle
  lift mRes g fl p to ℤ using htop with b hb
  rw [WithTop.untop'_coe]
  constructor
  · exact_mod_cast hone
  · intro st hst
    have hle := @foldl_min_le_mem g fl p st hst (⊤ : WithTop ℤ)
    rw [← mRes, ← hb] at hle
    exact_mod_cast hle

/-! ### One driver iteration and the loop invariants -/

theorem ekInv_zero {g : Graph} {s t : String} (hwf : WF g) :
    EKInv g s t zeroFlow := by
  refine ⟨?_, ?_, ?_⟩
  · intro i hi
    have := (hwf.2 _ (edge_mem g hi)).2.2
    exact ⟨le_refl _, this⟩
  · intro v _ _ _
    exact excess_zeroFlow g v
  · intro i _ _
    rfl

theorem ek_iterate {g : Graph} {excl : Exclusion} {s t : String}
    {fl : FlowState} (hwf : WF g) (hs : s ∈ g.vertices) (hst : s ≠ t)
    (hek : EKInv g s t fl)
    (hfound : t ∈ (findAugmentingPathEx g excl fl s t).visited) :
    ∃ p, walkPath g (findAugmentingPathEx g excl fl s t).pred s
        g.vertices.length t = some p ∧
      Chain g s t p ∧ ValidPath g fl p ∧ p ≠ [] ∧
      findMinResidualAlongPath g fl (findAugmentingPathEx g excl fl s t).pred
        s t = some (mRes g fl p) ∧
      augmentFlowAlongPath g (findAugmentingPathEx g excl fl s t).pred
        (WithTop.untop' 0 (mRes g fl p)) s t fl =
        some (applySteps (WithTop.untop' 0 (mRes g fl p)) p fl) ∧
      1 ≤ WithTop.untop' 0 (mRes g fl p) ∧
      EKInv g s t (applySteps (WithTop.untop' 0 (mRes g fl p)) p fl) ∧
      excess g (applySteps (WithTop.untop' 0 (mRes g fl p)) p fl) s =
        excess g fl s + WithTop.untop' 0 (mRes g fl p) := by
  obtain ⟨p, hwp, hch, hval, hnd, hlt⟩ := search_found_path hwf hs hfound
  have hne : p ≠ [] := by
    rintro rfl
    exact hst (Chain_nil.1 hch).symm
  obtain ⟨hb1, hble⟩ := mRes_facts hval hne
  refine ⟨p, hwp, hch, hval, hne, ?_, ?_, hb1, ⟨?_, ?_, ?_⟩, ?_⟩
  · exact minResWalk_eq hwp ⊤
  · exact augmentWalk_eq hwp fl
  · have := feasible_applySteps_take hek.1 hval
      (chain_idx_pairwise hch hnd) (by omega) hble p.length
    rwa [List.take_length] at this
  · exact conserves_applySteps hek.2.1 hch hlt
  · exact inflowZero_applySteps hek.2.2 hch hnd hval
  · exact value_applySteps hst hch hlt

theorem ekLoop_inv {g : Graph} {excl : Exclusion} {s t : String}
    (hwf : WF g) (hs : s ∈ g.vertices) (hst : s ≠ t) :
    ∀ {fuel : ℕ} {fl : FlowState}, EKInv g s t fl →
      EKInv g s t (ekLoop g excl s t fuel fl) := by
  intro fuel
  induction fuel with
  | zero => intro fl hek; exact hek
  | succ n ih =>
    intro fl hek
    by_cases hfound : t ∈ (findAugmentingPathEx g excl fl s t).visited
    · obtain ⟨p, hwp, hch, hval, hne, hmin, haug, hb1, hek', hexc⟩ :=
        ek_iterate hwf hs hst hek hfound
      rw [ekLoop]
      simp only [hfound, if_true, hmin, haug]
      exact ih hek'
    · rw [ekLoop]
      simp only [hfound, if_false]
      exact hek

theorem ekLoop_value {g : Graph} {excl : Exclusion} {s t : String}
    (hwf : WF g) (hs : s ∈ g.vertices) (hst : s ≠ t) :
    ∀ {fuel : ℕ} {fl : FlowState}, EKInv g s t fl →
      t ∈ (findAugmentingPathEx g excl (ekLoop g excl s t fuel fl) s t).visited →
      excess g fl s + (fuel : ℤ) ≤ excess g (ekLoop g excl s t fuel fl) s := by
  intro fuel
  induction fuel with
  | zero =>
    intro fl _ _
    rw [ekLoop]
    omega
  | succ n ih =>
    intro fl hek hfin
    by_cases hfound : t ∈ (findAugmentingPathEx g excl fl s t).visited
    · obtain ⟨p, hwp, hch, hval, hne, hmin, haug, hb1, hek', hexc⟩ :=
        ek_iterate hwf hs hst hek hfound
      rw [ekLoop] at hfin ⊢
      simp only [hfound, if_true, hmin, haug] at hfin ⊢
      have := ih hek' hfin
      rw [hexc] at this
      push_cast
      push_cast at this
      omega
    · rw [ekLoop] at hfin
      simp only [hfound, if_false] at hfin

theorem listCapSum :
    ∀ (l : List Edge), sumRange l.length
      (fun i => (l.getD i ⟨"", "", 0⟩).capacity) = (l.map Edge.capacity).sum := by
  intro l
  induction l with
  | nil => simp [sumRange]
  | cons e rest ih =>
    rw [List.length_cons, sumRange, List.range_succ_eq_map]
    simp only [List.map_cons, List.getD_cons_zero, List.map_map, List.sum_cons]
    rw [← ih, sumRange]
    rfl

theorem excess_le_capSum {g : Graph} {fl : FlowState} {s : String}
    (hwf : WF g) (hfe : Feasible g fl) :
    excess g fl s ≤ (g.edges.map Edge.capacity).sum := by
  have hin : 0 ≤ inflow g fl s := by
    apply sumRange_nonneg
    intro i hi
    by_cases h : (g.edge i).dest = s
    · simp only [h, if_true]
      exact (hfe i hi).1
    · simp [h]
  have hout : outflow g fl s ≤ (g.edges.map Edge.capacity).sum := by
    rw [← listCapSum g.edges]
    apply sumRange_le
    intro i hi
    by_cases h : (g.edge i).orig = s
    · simp only [h, if_true]
      exact (hfe i hi).2
    · simp only [h, if_false]
      exact (hwf.2 _ (edge_mem g hi)).2.2
  unfold excess
  omega

theorem ekLoop_terminated {g : Graph} {excl : Exclusion} {s t : String}
    (hwf : WF g) (hs : s ∈ g.vertices) (hst : s ≠ t) :
    t ∉ (findAugmentingPathEx g excl
      (ekLoop g excl s t (ekFuel g) zeroFlow) s t).visited := by
  intro hfin
  have hval := ekLoop_value hwf hs hst (ekInv_zero hwf) hfin
  have hfe := (@ekLoop_inv g excl s t hwf hs hst (ekFuel g) zeroFlow
    (ekInv_zero hwf)).1
  have hle := excess_le_capSum (s := s) hwf hfe
  rw [excess_zeroFlow] at hval
  have htn : ((g.edges.map Edge.capacity).sum : ℤ) ≤
      (((g.edges.map Edge.capacity).sum).toNat : ℤ) := Int.self_le_toNat _
  have hfuel : ((ekFuel g : ℕ) : ℤ) =
      ((((g.edges.map Edge.capacity).sum).toNat : ℕ) : ℤ) + 1 := by
    rw [ekFuel]
    push_cast
    ring
  omega

/-! ### The cut argument: maximality at termination -/

theorem sumRange_sub (n : ℕ) (f h : ℕ → ℤ) :
    sumRange n (fun i => f i - h i) = sumRange n f - sumRange n h := by
  rw [sumRange_eq, sumRange_eq, sumRange_eq]
  exact Finset.sum_sub_distrib

theorem value_eq_cut {g : Graph} {fl : FlowState} {s t : String}
    {R : List String} (hndR : R.Nodup) (hRsub : ∀ v ∈ R, v ∈ g.vertices)
    (hsR : s ∈ R) (htR : t ∉ R) (hcon : Conserves g s t fl) :
    excess g fl s =
      sumRange g.edges.length
        (fun i => if (g.edge i).orig ∈ R ∧ (g.edge i).dest ∉ R then fl i else 0) -
      sumRange g.edges.length
        (fun i => if (g.edge i).orig ∉ R ∧ (g.edge i).dest ∈ R then fl i else 0) := by
  have h1 : ∑ v ∈ R.toFinset, excess g fl v = excess g fl s := by
    apply Finset.sum_eq_single_of_mem s (List.mem_toFinset.2 hsR)
    intro b hb hbs
    exact hcon b (hRsub b (List.mem_toFinset.1 hb)) hbs
      (fun hbt => htR (hbt ▸ List.mem_toFinset.1 hb))
  have houtsum : ∑ v ∈ R.toFinset, outflow g fl v =
      sumRange g.edges.length
        (fun i => if (g.edge i).orig ∈ R then fl i else 0) := by
    unfold outflow
    simp only [sumRange_eq]
    rw [Finset.sum_comm]
    apply Finset.sum_congr rfl
    intro i _
    rw [Finset.sum_ite_eq R.toFinset ((g.edge i).orig) (fun _ => fl i)]
    simp [List.mem_toFinset]
  have hinsum : ∑ v ∈ R.toFinset, inflow g fl v =
      sumRange g.edges.length
        (fun i => if (g.edge i).dest ∈ R then fl i else 0) := by
    unfold inflow
    simp only [sumRange_eq]
    rw [Finset.sum_comm]
    apply Finset.sum_congr rfl
    intro i _
    rw [Finset.sum_ite_eq R.toFinset ((g.edge i).dest) (fun _ => fl i)]
    simp [List.mem_toFinset]
  have h2 : excess g fl s =
      sumRange g.edges.length
        (fun i => if (g.edge i).orig ∈ R then fl i else 0) -
      sumRange g.edges.length
        (fun i => if (g.edge i).dest ∈ R then fl i else 0) := by
    rw [← h1, ← houtsum, ← hinsum]
    unfold excess
    rw [Finset.sum_sub_distrib]
  rw [h2, ← sumRange_sub, ← sumRange_sub]
  apply sumRange_congr
  intro i _
  by_cases ho : (g.edge i).orig ∈ R <;> by_cases hd : (g.edge i).dest ∈ R <;>
    simp [ho, hd]

theorem unrestricted_max {g : Graph} {s t : String} (hwf : WF g)
    (hs : s ∈ g.vertices) (hst : s ≠ t) :
    ∀ fl', Feasible g fl' → Conserves g s t fl' →
      excess g fl' s ≤ excess g (ekLoop g .nothing s t (ekFuel g) zeroFlow) s := by
  intro fl' hfe' hcon'
  have hek := @ekLoop_inv g .nothing s t hwf hs hst (ekFuel g) zeroFlow
    (ekInv_zero hwf)
  have hnf := @ekLoop_terminated g .nothing s t hwf hs hst
  have hinv := @search_inv g .nothing
    (ekLoop g .nothing s t (ekFuel g) zeroFlow) s t hwf hs
  have hq : (findAugmentingPathEx g .nothing
      (ekLoop g .nothing s t (ekFuel g) zeroFlow) s t).queue = [] := by
    rcases @search_exit g .nothing
      (ekLoop g .nothing s t (ekFuel g) zeroFlow) s t hwf hs with h | h
    · exact h
    · exact absurd h hnf
  have hproc : ∀ v ∈ (findAugmentingPathEx g .nothing
        (ekLoop g .nothing s t (ekFuel g) zeroFlow) s t).visited,
      ∀ e ∈ incidentSteps g v,
        0 < residualOf g (ekLoop g .nothing s t (ekFuel g) zeroFlow) e →
        stepTarget g e ∈ (findAugmentingPathEx g .nothing
          (ekLoop g .nothing s t (ekFuel g) zeroFlow) s t).visited := by
    intro v hv e he hres
    rcases hinv.closed v hv with hq' | hp
    · rw [hq] at hq'
      cases hq'
    · exact hp e he hres (skipStep_nothing g e)
  have hsat : ∀ i < g.edges.length,
      ((g.edge i).orig ∈ (findAugmentingPathEx g .nothing
          (ekLoop g .nothing s t (ekFuel g) zeroFlow) s t).visited →
        (g.edge i).dest ∉ (findAugmentingPathEx g .nothing
          (ekLoop g .nothing s t (ekFuel g) zeroFlow) s t).visited →
        ekLoop g .nothing s t (ekFuel g) zeroFlow i = (g.edge i).capacity) ∧
      ((g.edge i).orig ∉ (findAugmentingPathEx g .nothing
          (ekLoop g .nothing s t (ekFuel g) zeroFlow) s t).visited →
        (g.edge i).dest ∈ (findAugmentingPathEx g .nothing
          (ekLoop g .nothing s t (ekFuel g) zeroFlow) s t).visited →
        ekLoop g .nothing s t (ekFuel g) zeroFlow i = 0) := by
    intro i hi
    constructor
    · intro ho hd
      by_contra hne
      have hres : 0 < residualOf g (ekLoop g .nothing s t (ekFuel g) zeroFlow)
          ⟨i, true⟩ := by
        have := (hek.1 i hi).2
        simp only [residualOf, if_true]
        omega
      have := hproc _ ho ⟨i, true⟩
        (mem_incidentSteps.2 ⟨hi, Or.inl ⟨rfl, rfl⟩⟩) hres
      simp only [stepTarget] at this
      exact hd this
    · intro ho hd
      by_contra hne
      have hres : 0 < residualOf g (ekLoop g .nothing s t (ekFuel g) zeroFlow)
          ⟨i, false⟩ := by
        have := (hek.1 i hi).1
        simp only [residualOf, Bool.false_eq_true, if_false]
        omega
      have := hproc _ hd ⟨i, false⟩
        (mem_incidentSteps.2 ⟨hi, Or.inr ⟨rfl, rfl⟩⟩) hres
      simp only [stepTarget, Bool.false_eq_true, if_false] at this
      exact ho this
  have hcut' := value_eq_cut (t := t)
    (R := (findAugmentingPathEx g .nothing
      (ekLoop g .nothing s t (ekFuel g) zeroFlow) s t).visited)
    hinv.core.nodup hinv.core.vsub hinv.core.start hnf hcon'
  have hcutf := value_eq_cut (t := t)
    (R := (findAugmentingPathEx g .nothing
      (ekLoop g .nothing s t (ekFuel g) zeroFlow) s t).visited)
    hinv.core.nodup hinv.core.vsub hinv.core.start hnf hek.2.1
  rw [hcut', hcutf]
  have hcap : ∀ fl0 : FlowState, Feasible g fl0 →
      sumRange g.edges.length
        (fun i => if (g.edge i).orig ∈ (findAugmentingPathEx g .nothing
            (ekLoop g .nothing s t (ekFuel g) zeroFlow) s t).visited ∧
          (g.edge i).dest ∉ (findAugmentingPathEx g .nothing
            (ekLoop g .nothing s t (ekFuel g) zeroFlow) s t).visited
          then fl0 i else 0) ≤
      sumRange g.edges.length
        (fun i => if (g.edge i).orig ∈ (findAugmentingPathEx g .nothing
            (ekLoop g .nothing s t (ekFuel g) zeroFlow) s t).visited ∧
          (g.edge i).dest ∉ (findAugmentingPathEx g .nothing
            (ekLoop g .nothing s t (ekFuel g) zeroFlow) s t).visited
          then (g.edge i).capacity else 0) := by
    intro fl0 hfe0
    apply sumRange_le
    intro i hi
    by_cases hc : (g.edge i).orig ∈ (findAugmentingPathEx g .nothing
        (ekLoop g .nothing s t (ekFuel g) zeroFlow) s t).visited ∧
      (g.edge i).dest ∉ (findAugmentingPathEx g .nothing
        (ekLoop g .nothing s t (ekFuel g) zeroFlow) s t).visited
    · simp only [hc, if_true]
      exact (hfe0 i hi).2
    · simp [hc]
  have houtf : sumRange g.edges.length
      (fun i => if (g.edge i).orig ∈ (findAugmentingPathEx g .nothing
          (ekLoop g .nothing s t (ekFuel g) zeroFlow) s t).visited ∧
        (g.edge i).dest ∉ (findAugmentingPathEx g .nothing
          (ekLoop g .nothing s t (ekFuel g) zeroFlow) s t).visited
        then ekLoop g .nothing s t (ekFuel g) zeroFlow i else 0) =
      sumRange g.edges.length
        (fun i => if (g.edge i).orig ∈ (findAugmentingPathEx g .nothing
            (ekLoop g .nothing s t (ekFuel g) zeroFlow) s t).visited ∧
          (g.edge i).dest ∉ (findAugmentingPathEx g .nothing
            (ekLoop g .nothing s t (ekFuel g) zeroFlow) s t).visited
          then (g.edge i).capacity else 0) := by
    apply sumRange_congr
    intro i hi
    by_cases hc : (g.edge i).orig ∈ (findAugmentingPathEx g .nothing
        (ekLoop g .nothing s t (ekFuel g) zeroFlow) s t).visited ∧
      (g.edge i).dest ∉ (findAugmentingPathEx g .nothing
        (ekLoop g .nothing s t (ekFuel g) zeroFlow) s t).visited
    · simp only [hc, if_true]
      exact (hsat i hi).1 hc.1 hc.2
    · simp [hc]
  have hinf : sumRange g.edges.length
      (fun i => if (g.edge i).orig ∉ (findAugmentingPathEx g .nothing
          (ekLoop g .nothing s t (ekFuel g) zeroFlow) s t).visited ∧
        (g.edge i).dest ∈ (findAugmentingPathEx g .nothing
          (ekLoop g .nothing s t (ekFuel g) zeroFlow) s t).visited
        then ekLoop g .nothing s t (ekFuel g) zeroFlow i else 0) = 0 := by
    apply sumRange_zero
    intro i hi
    by_cases hc : (g.edge i).orig ∉ (findAugmentingPathEx g .nothing
        (ekLoop g .nothing s t (ekFuel g) zeroFlow) s t).visited ∧
      (g.edge i).dest ∈ (findAugmentingPathEx g .nothing
        (ekLoop g .nothing s t (ekFuel g) zeroFlow) s t).visited
    · simp only [hc, if_true]
      exact (hsat i hi).2 hc.1 hc.2
    · simp [hc]
  have hin' : 0 ≤ sumRange g.edges.length
      (fun i => if (g.edge i).orig ∉ (findAugmentingPathEx g .nothing
          (ekLoop g .nothing s t (ekFuel g) zeroFlow) s t).visited ∧
        (g.edge i).dest ∈ (findAugmentingPathEx g .nothing
          (ekLoop g .nothing s t (ekFuel g) zeroFlow) s t).visited
        then fl' i else 0) := by
    apply sumRange_nonneg
    intro i hi
    by_cases hc : (g.edge i).orig ∉ (findAugmentingPathEx g .nothing
        (ekLoop g .nothing s t (ekFuel g) zeroFlow) s t).visited ∧
      (g.edge i).dest ∈ (findAugmentingPathEx g .nothing
        (ekLoop g .nothing s t (ekFuel g) zeroFlow) s t).visited
    · simp only [hc, if_true]
      exact (hfe' i hi).1
    · simp [hc]
  have h1 := hcap fl' hfe'
  rw [houtf, hinf]
  omega

/-! ### Congruence of the search and driver in the exclusion filter -/

theorem tav_congr {g : Graph} {excl excl' : Exclusion} {fl : FlowState}
    {st : SearchState} {e : Step}
    (h : skipStep g excl e = skipStep g excl' e) :
    testAndVisitEx g excl fl st e = testAndVisitEx g excl' fl st e := by
  unfold testAndVisitEx
  rw [h]

theorem foldl_tav_congr {g : Graph} {excl excl' : Exclusion} {fl : FlowState} :
    ∀ {es : List Step} {st : SearchState},
      (∀ e ∈ es, skipStep g excl e = skipStep g excl' e) →
      es.foldl (testAndVisitEx g excl fl) st =
        es.foldl (testAndVisitEx g excl' fl) st := by
  intro es
  induction es with
  | nil => intro st _; rfl
  | cons e rest ih =>
    intro st h
    rw [List.foldl_cons, List.foldl_cons,
      tav_congr (h e (List.mem_cons_self _ _)),
      ih (fun e' he' => h e' (List.mem_cons_of_mem _ he'))]

theorem bfsStep_congr {g : Graph} {excl excl' : Exclusion} {fl : FlowState}
    {t : String} {st : SearchState}
    (h : ∀ e : Step, e.idx < g.edges.length →
      skipStep g excl e = skipStep g excl' e) :
    bfsStep g excl fl t st = bfsStep g excl' fl t st := by
  unfold bfsStep
  split
  · rfl
  · split
    · rfl
    · rw [foldl_tav_congr (fun e he => h e (incident_idx_lt he))]

theorem bfsLoop_congr {g : Graph} {excl excl' : Exclusion} {fl : FlowState}
    {t : String}
    (h : ∀ e : Step, e.idx < g.edges.length →
      skipStep g excl e = skipStep g excl' e) :
    ∀ (fuel : ℕ) (st : SearchState),
      bfsLoop g excl fl t fuel st = bfsLoop g excl' fl t fuel st := by
  intro fuel
  induction fuel with
  | zero => intro st; rfl
  | succ n ih =>
    intro st
    rw [bfsLoop, bfsLoop, bfsStep_congr h]
    cases bfsStep g excl' fl t st with
    | none => rfl
    | some st' => exact ih st'

theorem searchEx_congr {g : Graph} {excl excl' : Exclusion} {fl : FlowState}
    {s t : String}
    (h : ∀ e : Step, e.idx < g.edges.length →
      skipStep g excl e = skipStep g excl' e) :
    findAugmentingPathEx g excl fl s t = findAugmentingPathEx g excl' fl s t :=
  bfsLoop_congr h _ _

theorem ekLoop_congr {g : Graph} {excl excl' : Exclusion} {s t : String}
    (h : ∀ (fl : FlowState) (e : Step), e.idx < g.edges.length →
      skipStep g excl e = skipStep g excl' e) :
    ∀ (fuel : ℕ) (fl : FlowState),
      ekLoop g excl s t fuel fl = ekLoop g excl' s t fuel fl := by
  intro fuel
  induction fuel with
  | zero => intro fl; rfl
  | succ n ih =>
    intro fl
    rw [ekLoop, ekLoop]
    rw [searchEx_congr (h fl)]
    by_cases ht : t ∈ (findAugmentingPathEx g excl' fl s t).visited
    · rw [if_pos ht, if_pos ht]
      cases findMinResidualAlongPath g fl
          (findAugmentingPathEx g excl' fl s t).pred s t with
      | none => rfl
      | some b =>
        dsimp only
        cases augmentFlowAlongPath g (findAugmentingPathEx g excl' fl s t).pred
            (WithTop.untop' 0 b) s t fl with
        | none => rfl
        | some fl' =>
          dsimp only
          exact ih fl'
    · rw [if_neg ht, if_neg ht]

theorem skipStep_vertex_eq {g : Graph} {d : String} (hwf : WF g)
    (hd : d ∉ g.vertices) {e : Step} (he : e.idx < g.edges.length) :
    skipStep g (.vertex d) e = skipStep g .nothing e := by
  rw [skipStep_nothing]
  unfold skipStep
  rw [beq_eq_false_iff_ne]
  intro htgt
  exact hd (htgt ▸ stepTarget_mem_vertices hwf he)

theorem step_ends_orig_dest (g : Graph) (e : Step) :
    (stepSource g e = (g.edge e.idx).orig ∧ stepTarget g e = (g.edge e.idx).dest) ∨
      (stepSource g e = (g.edge e.idx).dest ∧ stepTarget g e = (g.edge e.idx).orig) := by
  unfold stepSource stepTarget
  cases e.fwd <;> simp

theorem skipStep_pipe_eq {g : Graph} {a b : String} {uni : Bool}
    (hno : NoEdgeBetween g a b) {e : Step} (he : e.idx < g.edges.length) :
    skipStep g (.pipe a b uni) e = skipStep g .nothing e := by
  rw [skipStep_nothing]
  unfold skipStep
  have hne := hno _ (edge_mem g he)
  rcases step_ends_orig_dest g e with ⟨h1, h2⟩ | ⟨h1, h2⟩ <;>
    · rw [h1, h2]
      simp only [Bool.or_eq_false_iff, Bool.and_eq_false_iff,
        Bool.not_eq_true']
      constructor
      · rw [beq_eq_false_iff_ne, beq_eq_false_iff_ne]
        tauto
      · rw [beq_eq_false_iff_ne, beq_eq_false_iff_ne]
        tauto

/-! ### Reachability of BFS states and the vertex exclusion -/

theorem bfsLoop_reaches (g : Graph) (excl : Exclusion) (fl : FlowState)
    (t : String) :
    ∀ (fuel : ℕ) (st : SearchState),
      BFSReaches g excl fl t st (bfsLoop g excl fl t fuel st) := by
  intro fuel
  induction fuel with
  | zero => intro st; exact BFSReaches.refl st
  | succ n ih =>
    intro st
    rw [bfsLoop]
    cases hstep : bfsStep g excl fl t st with
    | none => exact BFSReaches.refl st
    | some st' => exact BFSReaches.head hstep (ih st')

theorem tav_vertex_avoids {g : Graph} {fl : FlowState} {d : String}
    {st : SearchState} {e : Step} (hv : d ∉ st.visited) (hq : d ∉ st.queue) :
    d ∉ (testAndVisitEx g (.vertex d) fl st e).visited ∧
      d ∉ (testAndVisitEx g (.vertex d) fl st e).queue := by
  by_cases hg : stepTarget g e ∈ st.visited ∨ residualOf g fl e ≤ 0 ∨
      skipStep g (.vertex d) e = true
  · rw [tav_of_skip hg]
    exact ⟨hv, hq⟩
  · rw [tav_of_visit hg]
    push_neg at hg
    have htgt : stepTarget g e ≠ d := by
      intro h
      apply hg.2.2
      unfold skipStep
      rw [beq_iff_eq]
      exact h
    constructor
    · intro hmem
      rcases List.mem_append.1 hmem with h | h
      · exact hv h
      · exact htgt (List.mem_singleton.1 h).symm
    · intro hmem
      rcases List.mem_append.1 hmem with h | h
      · exact hq h
      · exact htgt (List.mem_singleton.1 h).symm

theorem foldl_tav_vertex_avoids {g : Graph} {fl : FlowState} {d : String} :
    ∀ {es : List Step} {st : SearchState}, d ∉ st.visited → d ∉ st.queue →
      d ∉ (es.foldl (testAndVisitEx g (.vertex d) fl) st).visited ∧
        d ∉ (es.foldl (testAndVisitEx g (.vertex d) fl) st).queue := by
  intro es
  induction es with
  | nil => intro st hv hq; exact ⟨hv, hq⟩
  | cons e rest ih =>
    intro st hv hq
    rw [List.foldl_cons]
    obtain ⟨hv', hq'⟩ := tav_vertex_avoids (e := e) hv hq
    exact ih hv' hq'

theorem bfsStep_vertex_avoids {g : Graph} {fl : FlowState} {t d : String}
    {st st' : SearchState} (hv : d ∉ st.visited) (hq : d ∉ st.queue)
    (hstep : bfsStep g (.vertex d) fl t st = some st') :
    d ∉ st'.visited ∧ d ∉ st'.queue := by
  obtain ⟨-, v, rest, hqeq, rfl⟩ := bfsStep_some hstep
  refine foldl_tav_vertex_avoids hv ?_
  intro hmem
  apply hq
  rw [hqeq]
  exact List.mem_cons_of_mem _ hmem

theorem reaches_vertex_avoids {g : Graph} {fl : FlowState} {t d : String}
    {a c : SearchState} (hreach : BFSReaches g (.vertex d) fl t a c)
    (hv : d ∉ a.visited) (hq : d ∉ a.queue) :
    d ∉ c.visited ∧ d ∉ c.queue := by
  induction hreach with
  | refl st => exact ⟨hv, hq⟩
  | head hstep _ ih =>
    obtain ⟨hv', hq'⟩ := bfsStep_vertex_avoids hv hq hstep
    exact ih hv' hq'

/-! ### Remaining helper lemmas -/

theorem inflow_eq_zero {g : Graph} {s : String} {fl : FlowState}
    (h : InflowZero g s fl) : inflow g fl s = 0 := by
  apply sumRange_zero
  intro i hi
  by_cases hd : (g.edge i).dest = s
  · simp [hd, h i hi hd]
  · simp [hd]

theorem totalFlow_eq_excess {g : Graph} {s : String} {fl : FlowState}
    (h : InflowZero g s fl) : totalFlow g fl s = excess g fl s := by
  unfold totalFlow excess
  rw [inflow_eq_zero h]
  ring

theorem foldl_min_attained {g : Graph} {fl : FlowState} :
    ∀ {p : List Step} {acc : WithTop ℤ},
      p.foldl (fun a st => min a ((residualOf g fl st : ℤ) : WithTop ℤ)) acc = acc ∨
      ∃ e ∈ p, p.foldl (fun a st => min a ((residualOf g fl st : ℤ) : WithTop ℤ)) acc =
        ((residualOf g fl e : ℤ) : WithTop ℤ) := by
  intro p
  induction p with
  | nil => intro acc; exact Or.inl rfl
  | cons e rest ih =>
    intro acc
    rw [List.foldl_cons]
    rcases @ih (min acc ((residualOf g fl e : ℤ) : WithTop ℤ)) with h | ⟨e', he', h⟩
    · rw [h]
      rcases min_cases acc ((residualOf g fl e : ℤ) : WithTop ℤ) with ⟨h', -⟩ | ⟨h', -⟩
      · exact Or.inl h'
      · exact Or.inr ⟨e, List.mem_cons_self _ _, h'⟩
    · exact Or.inr ⟨e', List.mem_cons_of_mem _ he', h⟩

theorem mRes_attained {g : Graph} {fl : FlowState} {p : List Step}
    (hne : p ≠ []) : ∃ e ∈ p, mRes g fl p = ((residualOf g fl e : ℤ) : WithTop ℤ) := by
  rcases @foldl_min_attained g fl p ⊤ with h | h
  · exfalso
    obtain ⟨e, rest, rfl⟩ := List.exists_cons_of_ne_nil hne
    have hle := @foldl_min_le_mem g fl (e :: rest) e
      (List.mem_cons_self e rest) (⊤ : WithTop ℤ)
    rw [h] at hle
    exact WithTop.not_top_le_coe _ hle
  · exact h

theorem bfsLoop_visited_mono {g : Graph} {excl : Exclusion} {fl : FlowState}
    {t x : String} :
    ∀ {fuel : ℕ} {st : SearchState}, x ∈ st.visited →
      x ∈ (bfsLoop g excl fl t fuel st).visited := by
  intro fuel
  induction fuel with
  | zero => intro st hx; exact hx
  | succ n ih =>
    intro st hx
    rw [bfsLoop]
    cases hstep : bfsStep g excl fl t st with
    | none => exact hx
    | some st' =>
      obtain ⟨-, v, rest, -, rfl⟩ := bfsStep_some hstep
      exact ih (foldl_tav_visited_mono hx)

/-! ### The claims -/

/-- C1: for every finite well-formed graph (non-negative capacities, edge
endpoints among the vertices) and valid, distinct source and sink codes, the
Max-Flow Driver `edmondsKarp` succeeds and terminates at the natural exit:
Path Search finds no augmenting path at the final flow state, and the total
flow out of the source equals the maximum feasible flow value from source to
sink (maximal among all feasible, conservation-obeying flows). -/
theorem C1_edmondsKarp_terminates_and_maximal {g : Graph} {s t : String}
    (fl0 : FlowState) (hwf : WF g) (hs : s ∈ g.vertices) (ht : t ∈ g.vertices)
    (hst : s ≠ t) :
    ∃ fst, edmondsKarp g s t fl0 = Except.ok fst ∧
      t ∉ (findAugmentingPath g fst s t).visited ∧
      Feasible g fst ∧ Conserves g s t fst ∧
      (∀ fl', Feasible g fl' → Conserves g s t fl' →
        excess g fl' s ≤ totalFlow g fst s) ∧
      excess g fst s = totalFlow g fst s := by
  have hek := @ekLoop_inv g .nothing s t hwf hs hst (ekFuel g) zeroFlow
    (ekInv_zero hwf)
  refine ⟨ekLoop g .nothing s t (ekFuel g) zeroFlow, ?_, ?_, hek.1, hek.2.1,
    ?_, ?_⟩
  · unfold edmondsKarp edmondsKarpFrom
    rw [if_pos ⟨hs, ht⟩]
  · exact @ekLoop_terminated g .nothing s t hwf hs hst
  · intro fl' hfe' hcon'
    rw [totalFlow_eq_excess hek.2.2]
    exact unrestricted_max hwf hs hst fl' hfe' hcon'
  · rw [totalFlow_eq_excess hek.2.2]

/-- C1 witness: the theorem applied to the linear network. -/
theorem C1_witness :
    ∃ fst, edmondsKarp gLin "s" "t" zeroFlow = Except.ok fst ∧
      "t" ∉ (findAugmentingPath gLin fst "s" "t").visited ∧
      Feasible gLin fst ∧ Conserves gLin "s" "t" fst ∧
      (∀ fl', Feasible gLin fl' → Conserves gLin "s" "t" fl' →
        excess gLin fl' "s" ≤ totalFlow gLin fst "s") ∧
      excess gLin fst "s" = totalFlow gLin fst "s" :=
  C1_edmondsKarp_terminates_and_maximal zeroFlow (by unfold WF; decide)
    (by decide) (by decide) (by decide)

/-- C2: after the Max-Flow Driver terminates, and after every completed
augmentation (the state after `i` loop iterations from the fresh zero flow,
for every `i`), flow conservation holds at every vertex other than the source
and the sink; stated for every exclusion variant of the driver. -/
theorem C2_flow_conservation {g : Graph} (excl : Exclusion) {s t : String}
    (hwf : WF g) (hs : s ∈ g.vertices) (ht : t ∈ g.vertices) (hst : s ≠ t) :
    (∀ i : ℕ, Conserves g s t (ekLoop g excl s t i zeroFlow)) ∧
    ∀ fl0 fst, edmondsKarpFrom g excl s t fl0 = Except.ok fst →
      Conserves g s t fst := by
  constructor
  · intro i
    exact (@ekLoop_inv g excl s t hwf hs hst i zeroFlow (ekInv_zero hwf)).2.1
  · intro fl0 fst h
    unfold edmondsKarpFrom at h
    rw [if_pos ⟨hs, ht⟩] at h
    injection h with h2
    rw [← h2]
    exact (@ekLoop_inv g excl s t hwf hs hst (ekFuel g) zeroFlow
      (ekInv_zero hwf)).2.1

/-- C2 witness: the theorem applied to the linear network. -/
theorem C2_witness :
    (∀ i : ℕ, Conserves gLin "s" "t" (ekLoop gLin .nothing "s" "t" i zeroFlow)) ∧
    ∀ fl0 fst, edmondsKarpFrom gLin .nothing "s" "t" fl0 = Except.ok fst →
      Conserves gLin "s" "t" fst :=
  C2_flow_conservation .nothing (by unfold WF; decide) (by decide) (by decide)
    (by decide)

/-- C3: at every point during and after a Max-Flow Driver run — after `i`
completed augmentations plus any number `k` of the single-edge updates of the
next augmentation, which is exactly the granularity at which the algorithm
writes flow values — every edge satisfies `0 ≤ flow ≤ capacity`; stated for
every exclusion variant. -/
theorem C3_capacity_bounds {g : Graph} (excl : Exclusion) {s t : String}
    (hwf : WF g) (hs : s ∈ g.vertices) (ht : t ∈ g.vertices) (hst : s ≠ t) :
    ∀ i k : ℕ, ∀ j < g.edges.length,
      0 ≤ ekMid g excl s t i k j ∧
        ekMid g excl s t i k j ≤ (g.edge j).capacity := by
  intro i k
  have hek := @ekLoop_inv g excl s t hwf hs hst i zeroFlow (ekInv_zero hwf)
  simp only [ekMid]
  by_cases hfound : t ∈ (findAugmentingPathEx g excl
      (ekLoop g excl s t i zeroFlow) s t).visited
  · obtain ⟨p, hwp, hch, hval, hnd, hlt⟩ := search_found_path hwf hs hfound
    have hne : p ≠ [] := by
      rintro rfl
      exact hst (Chain_nil.1 hch).symm
    obtain ⟨hb1, hble⟩ := mRes_facts hval hne
    have hmin : findMinResidualAlongPath g (ekLoop g excl s t i zeroFlow)
        (findAugmentingPathEx g excl (ekLoop g excl s t i zeroFlow) s t).pred
        s t = some (mRes g (ekLoop g excl s t i zeroFlow) p) :=
      minResWalk_eq hwp ⊤
    simp only [hfound, if_true, hwp, hmin]
    exact feasible_applySteps_take hek.1 hval (chain_idx_pairwise hch hnd)
      (by omega) hble k
  · simp only [hfound, if_false]
    exact hek.1

/-- C3 witness: the theorem applied to the linear network, at the state one
augmentation plus one edge update into the run, on the first edge. -/
theorem C3_witness :
    0 ≤ ekMid gLin .nothing "s" "t" 1 1 0 ∧
      ekMid gLin .nothing "s" "t" 1 1 0 ≤ (gLin.edge 0).capacity :=
  C3_capacity_bounds .nothing (by unfold WF; decide) (by decide) (by decide)
    (by decide) 1 1 0 (by decide)

/-- C4: for every well-formed graph with valid, distinct source and sink,
excluding any single vertex or any single edge yields a total max flow less
than or equal to that of the unrestricted computation on the same graph. -/
theorem C4_exclusion_monotone {g : Graph} {s t : String} (d a b : String)
    (uni : Bool) (fl0 : FlowState) (hwf : WF g) (hs : s ∈ g.vertices)
    (ht : t ∈ g.vertices) (hst : s ≠ t) :
    ∃ fu fd fe, edmondsKarp g s t fl0 = Except.ok fu ∧
      edmondsKarpWithDeactivatedVertex g d s t fl0 = Except.ok fd ∧
      edmondsKarpWithDeactivatedEdge g a b uni s t fl0 = Except.ok fe ∧
      totalFlow g fd s ≤ totalFlow g fu s ∧
      totalFlow g fe s ≤ totalFlow g fu s := by
  have heku := @ekLoop_inv g .nothing s t hwf hs hst (ekFuel g) zeroFlow
    (ekInv_zero hwf)
  have hekd := @ekLoop_inv g (.vertex d) s t hwf hs hst (ekFuel g) zeroFlow
    (ekInv_zero hwf)
  have heke := @ekLoop_inv g (.pipe a b uni) s t hwf hs hst (ekFuel g) zeroFlow
    (ekInv_zero hwf)
  refine ⟨ekLoop g .nothing s t (ekFuel g) zeroFlow,
    ekLoop g (.vertex d) s t (ekFuel g) zeroFlow,
    ekLoop g (.pipe a b uni) s t (ekFuel g) zeroFlow, ?_, ?_, ?_, ?_, ?_⟩
  · unfold edmondsKarp edmondsKarpFrom
    rw [if_pos ⟨hs, ht⟩]
  · unfold edmondsKarpWithDeactivatedVertex edmondsKarpFrom
    rw [if_pos ⟨hs, ht⟩]
  · unfold edmondsKarpWithDeactivatedEdge edmondsKarpFrom
    rw [if_pos ⟨hs, ht⟩]
  · rw [totalFlow_eq_excess hekd.2.2, totalFlow_eq_excess heku.2.2]
    exact unrestricted_max hwf hs hst _ hekd.1 hekd.2.1
  · rw [totalFlow_eq_excess heke.2.2, totalFlow_eq_excess heku.2.2]
    exact unrestricted_max hwf hs hst _ heke.1 heke.2.1

/-- C4 witness: the theorem applied to the linear network, excluding station
`A` and the pipe between `A` and `t`. -/
theorem C4_witness :
    ∃ fu fd fe, edmondsKarp gLin "s" "t" zeroFlow = Except.ok fu ∧
      edmondsKarpWithDeactivatedVertex gLin "A" "s" "t" zeroFlow =
        Except.ok fd ∧
      edmondsKarpWithDeactivatedEdge gLin "A" "t" true "s" "t" zeroFlow =
        Except.ok fe ∧
      totalFlow gLin fd "s" ≤ totalFlow gLin fu "s" ∧
      totalFlow gLin fe "s" ≤ totalFlow gLin fu "s" :=
  C4_exclusion_monotone "A" "A" "t" true zeroFlow (by unfold WF; decide)
    (by decide) (by decide) (by decide)

/-- C5: running the unrestricted Max-Flow Driver twice in succession on an
unmodified graph yields the same resulting flow state (hence the same total
flow), because each fresh driver invocation resets all edge flows to zero
before starting. -/
theorem C5_driver_idempotent {g : Graph} {s t : String} {fl0 fl1 : FlowState}
    (h1 : edmondsKarp g s t fl0 = Except.ok fl1) :
    ∃ fl2, edmondsKarp g s t fl1 = Except.ok fl2 ∧ fl2 = fl1 ∧
      totalFlow g fl2 s = totalFlow g fl1 s := by
  unfold edmondsKarp edmondsKarpFrom at h1 ⊢
  by_cases hv : s ∈ g.vertices ∧ t ∈ g.vertices
  · rw [if_pos hv] at h1 ⊢
    injection h1 with h2
    exact ⟨ekLoop g .nothing s t (ekFuel g) zeroFlow, rfl, h2, by rw [h2]⟩
  · rw [if_neg hv] at h1
    cases h1

/-- C5 witness: the theorem applied to the linear network. -/
theorem C5_witness :
    ∃ fl2, edmondsKarp gLin "s" "t"
        (ekLoop gLin .nothing "s" "t" (ekFuel gLin) zeroFlow) =
        Except.ok fl2 ∧
      fl2 = ekLoop gLin .nothing "s" "t" (ekFuel gLin) zeroFlow ∧
      totalFlow gLin fl2 "s" =
        totalFlow gLin (ekLoop gLin .nothing "s" "t" (ekFuel gLin) zeroFlow) "s" :=
  @C5_driver_idempotent gLin "s" "t" zeroFlow
    (ekLoop gLin .nothing "s" "t" (ekFuel gLin) zeroFlow)
    (by unfold edmondsKarp edmondsKarpFrom; rw [if_pos (by decide)])

/-- C6: a unidirectional edge exclusion between `a` and `b` skips exactly the
traversal steps moving from `a` to `b` (flow may still traverse `b` to `a`);
a bidirectional exclusion skips traversal in both directions between the
pair; a step the filter does not skip is treated exactly as by the
unrestricted `testAndVisit`, and a skipped step leaves the search state
unchanged. -/
theorem C6_edge_exclusion_directionality (g : Graph) (a b : String)
    (fl : FlowState) (st : SearchState) (e : Step) :
    (skipStep g (.pipe a b true) e = true ↔
      stepSource g e = a ∧ stepTarget g e = b) ∧
    (skipStep g (.pipe a b false) e = true ↔
      (stepSource g e = a ∧ stepTarget g e = b) ∨
        (stepSource g e = b ∧ stepTarget g e = a)) ∧
    (∀ uni, skipStep g (.pipe a b uni) e = false →
      testAndVisitWithDeactivatedEdge g fl st e a b uni =
        testAndVisit g fl st e) ∧
    ∀ uni, skipStep g (.pipe a b uni) e = true →
      testAndVisitWithDeactivatedEdge g fl st e a b uni = st := by
  refine ⟨?_, ?_, ?_, ?_⟩
  · unfold skipStep
    simp
  · unfold skipStep
    simp
  · intro uni h
    unfold testAndVisitWithDeactivatedEdge testAndVisit
    apply tav_congr
    rw [h, skipStep_nothing]
  · intro uni h
    unfold testAndVisitWithDeactivatedEdge
    exact tav_of_skip (Or.inr (Or.inr h))

/-- C6 witness: the theorem applied to a concrete skipped step and a concrete
permitted step on the linear network. -/
theorem C6_witness :
    testAndVisitWithDeactivatedEdge gLin zeroFlow (initState "s") ⟨0, true⟩
        "s" "A" true = initState "s" ∧
      testAndVisitWithDeactivatedEdge gLin zeroFlow (initState "s") ⟨1, true⟩
        "s" "A" true = testAndVisit gLin zeroFlow (initState "s") ⟨1, true⟩ :=
  ⟨(C6_edge_exclusion_directionality gLin "s" "A" zeroFlow (initState "s")
      ⟨0, true⟩).2.2.2 true (by decide),
    (C6_edge_exclusion_directionality gLin "s" "A" zeroFlow (initState "s")
      ⟨1, true⟩).2.2.1 true (by decide)⟩

/-- C7 counterexample: with the deactivated vertex equal to the search
source, the vertex-excluded Path Search does mark the deactivated vertex
visited (and it is enqueued by the initial step), so "the deactivated vertex
is never marked visited and never enqueued" fails as universally stated. -/
theorem C7_counterexample :
    "s" ∈ (findAugmentingPathWithDeactivatedVertex gLin zeroFlow
        "s" "t" "s").visited ∧
      "s" ∈ (initState "s").queue := by
  constructor
  · exact bfsLoop_visited_mono (by simp [initState])
  · simp [initState]

/-- C7 (amended): provided the deactivated vertex differs from the search
source, then during the entire vertex-excluded Path Search — at every state
the BFS loop passes through, hence uniformly whether a vertex would be
reached via a forward or a residual/reverse step — the deactivated vertex is
never marked visited and never enqueued, and in particular it is absent from
the final search state's visited list and queue. -/
theorem C7_vertex_exclusion_amended {g : Graph} {fl : FlowState}
    {s t d : String} (hd : d ≠ s) :
    (∀ st, BFSReaches g (.vertex d) fl t (initState s) st →
      d ∉ st.visited ∧ d ∉ st.queue) ∧
    d ∉ (findAugmentingPathWithDeactivatedVertex g fl s t d).visited ∧
    d ∉ (findAugmentingPathWithDeactivatedVertex g fl s t d).queue := by
  have hv : d ∉ (initState s).visited := by
    simp only [initState, List.mem_singleton]
    exact hd
  have hq : d ∉ (initState s).queue := by
    simp only [initState, List.mem_singleton]
    exact hd
  refine ⟨fun st hr => reaches_vertex_avoids hr hv hq, ?_, ?_⟩
  · exact (reaches_vertex_avoids
      (bfsLoop_reaches g (.vertex d) fl t g.vertices.length (initState s))
      hv hq).1
  · exact (reaches_vertex_avoids
      (bfsLoop_reaches g (.vertex d) fl t g.vertices.length (initState s))
      hv hq).2

/-- C7 witness: the amended theorem applied to the linear network with a
deactivated code different from the source. -/
theorem C7_witness :
    (∀ st, BFSReaches gLin (.vertex "A") zeroFlow "t" (initState "s") st →
      "A" ∉ st.visited ∧ "A" ∉ st.queue) ∧
    "A" ∉ (findAugmentingPathWithDeactivatedVertex gLin zeroFlow
      "s" "t" "A").visited ∧
    "A" ∉ (findAugmentingPathWithDeactivatedVertex gLin zeroFlow
      "s" "t" "A").queue :=
  C7_vertex_exclusion_amended (by decide)

/-- C8: invoking the Max-Flow Driver with a source or sink station code not
present in the graph is reported as an error (never an `ok` result), the
computation is aborted, and the graph's flow state is left unmutated. -/
theorem C8_invalid_endpoint_reported {g : Graph} {s t : String}
    (fl0 : FlowState) (h : s ∉ g.vertices ∨ t ∉ g.vertices) :
    (∃ msg, edmondsKarp g s t fl0 = Except.error msg) ∧
      graphStateAfter g .nothing s t fl0 = fl0 ∧
      ∀ fst, edmondsKarp g s t fl0 ≠ Except.ok fst := by
  have hc : ¬(s ∈ g.vertices ∧ t ∈ g.vertices) := by tauto
  have herr : edmondsKarpFrom g .nothing s t fl0 =
      Except.error "Invalid source and/or target vertex" := by
    unfold edmondsKarpFrom
    rw [if_neg hc]
  refine ⟨⟨_, herr⟩, ?_, ?_⟩
  · unfold graphStateAfter
    rw [herr]
  · intro fst hok
    unfold edmondsKarp at hok
    rw [herr] at hok
    cases hok

/-- C8 witness: the theorem applied to the linear network with an absent
sink code. -/
theorem C8_witness :
    (∃ msg, edmondsKarp gLin "s" "x" zeroFlow = Except.error msg) ∧
      graphStateAfter gLin .nothing "s" "x" zeroFlow = zeroFlow ∧
      ∀ fst, edmondsKarp gLin "s" "x" zeroFlow ≠ Except.ok fst :=
  C8_invalid_endpoint_reported zeroFlow (Or.inr (by decide))

/-- C9: after a successful Path Search, `findMinResidualAlongPath` walks the
predecessor chain from the sink back to the source and returns exactly the
minimum residual capacity over the edges of that chain (a lower bound on
every edge's residual, attained on some edge of a non-empty chain), where the
residual is capacity minus flow for a forward edge and the counterpart's flow
for a reverse edge. -/
theorem C9_min_residual_contract {g : Graph} (excl : Exclusion)
    {fl : FlowState} {s t : String} (hwf : WF g) (hs : s ∈ g.vertices)
    (hfound : t ∈ (findAugmentingPathEx g excl fl s t).visited) :
    ∃ p, walkPath g (findAugmentingPathEx g excl fl s t).pred s
        g.vertices.length t = some p ∧ Chain g s t p ∧
      findMinResidualAlongPath g fl (findAugmentingPathEx g excl fl s t).pred
        s t = some (mRes g fl p) ∧
      (∀ e ∈ p, mRes g fl p ≤ ((residualOf g fl e : ℤ) : WithTop ℤ)) ∧
      (p ≠ [] → ∃ e ∈ p, mRes g fl p = ((residualOf g fl e : ℤ) : WithTop ℤ)) ∧
      (∀ e ∈ p, e.fwd = true →
        residualOf g fl e = (g.edge e.idx).capacity - fl e.idx) ∧
      ∀ e ∈ p, e.fwd = false → residualOf g fl e = fl e.idx := by
  obtain ⟨p, hwp, hch, hval, hnd, hlt⟩ := search_found_path hwf hs hfound
  refine ⟨p, hwp, hch, minResWalk_eq hwp ⊤, ?_, mRes_attained, ?_, ?_⟩
  · intro e he
    exact @foldl_min_le_mem g fl p e he ⊤
  · intro e he hf
    simp [residualOf, hf]
  · intro e he hf
    simp [residualOf, hf]

/-- C9 witness: the theorem applied to the linear network. -/
theorem C9_witness :
    ∃ p, walkPath gLin (findAugmentingPathEx gLin .nothing zeroFlow
        "s" "t").pred "s" gLin.vertices.length "t" = some p ∧
      Chain gLin "s" "t" p ∧
      findMinResidualAlongPath gLin zeroFlow
        (findAugmentingPathEx gLin .nothing zeroFlow "s" "t").pred "s" "t" =
        some (mRes gLin zeroFlow p) ∧
      (∀ e ∈ p, mRes gLin zeroFlow p ≤
        ((residualOf gLin zeroFlow e : ℤ) : WithTop ℤ)) ∧
      (p ≠ [] → ∃ e ∈ p, mRes gLin zeroFlow p =
        ((residualOf gLin zeroFlow e : ℤ) : WithTop ℤ)) ∧
      (∀ e ∈ p, e.fwd = true → residualOf gLin zeroFlow e =
        (gLin.edge e.idx).capacity - zeroFlow e.idx) ∧
      ∀ e ∈ p, e.fwd = false →
        residualOf gLin zeroFlow e = zeroFlow e.idx :=
  C9_min_residual_contract .nothing (by unfold WF; decide) (by decide)
    (by decide)

/-- C10: invoking the vertex-excluded driver with a station code naming no
vertex, or the edge-excluded driver with an endpoint pair matching no edge of
the graph in either orientation, is a silent no-op: the call produces exactly
the same result (the same final flow state) as the unrestricted driver, and
with valid source and sink it completes without error. -/
theorem C10_unknown_exclusion_noop {g : Graph} {s t d a b : String}
    (uni : Bool) (fl0 : FlowState) (hwf : WF g) (hs : s ∈ g.vertices)
    (ht : t ∈ g.vertices) (hd : d ∉ g.vertices) (hno : NoEdgeBetween g a b) :
    edmondsKarpWithDeactivatedVertex g d s t fl0 = edmondsKarp g s t fl0 ∧
    edmondsKarpWithDeactivatedEdge g a b uni s t fl0 = edmondsKarp g s t fl0 ∧
    ∃ fu, edmondsKarp g s t fl0 = Except.ok fu := by
  have h1 : ekLoop g (.vertex d) s t (ekFuel g) zeroFlow =
      ekLoop g .nothing s t (ekFuel g) zeroFlow :=
    ekLoop_congr (fun fl e he => skipStep_vertex_eq hwf hd he) _ _
  have h2 : ekLoop g (.pipe a b uni) s t (ekFuel g) zeroFlow =
      ekLoop g .nothing s t (ekFuel g) zeroFlow :=
    ekLoop_congr (fun fl e he => skipStep_pipe_eq hno he) _ _
  refine ⟨?_, ?_, ?_⟩
  · unfold edmondsKarpWithDeactivatedVertex edmondsKarp edmondsKarpFrom
    rw [h1]
  · unfold edmondsKarpWithDeactivatedEdge edmondsKarp edmondsKarpFrom
    rw [h2]
  · unfold edmondsKarp edmondsKarpFrom
    rw [if_pos ⟨hs, ht⟩]
    exact ⟨_, rfl⟩

/-- C10 witness: the theorem applied to the linear network, with an unknown
station code and an endpoint pair with no connecting pipe. -/
theorem C10_witness :
    edmondsKarpWithDeactivatedVertex gLin "x" "s" "t" zeroFlow =
      edmondsKarp gLin "s" "t" zeroFlow ∧
    edmondsKarpWithDeactivatedEdge gLin "s" "t" false "s" "t" zeroFlow =
      edmondsKarp gLin "s" "t" zeroFlow ∧
    ∃ fu, edmondsKarp gLin "s" "t" zeroFlow = Except.ok fu :=
  C10_unknown_exclusion_noop false zeroFlow (by unfold WF; decide)
    (by decide) (by decide) (by decide) (by unfold NoEdgeBetween; decide)

end WaterSupply
